import Mathlib

/-!
Verification of the skillink reconciliation engine (src/sync.ts).

The engine links per-agent skill directories to a canonical source
directory via relative symbolic links.  We shallowly embed the code:

* a filesystem path is a list of components (`FPath`); Node's
  `path.join` normalizes `.` and `..` segments, modelled by `joinP`;
  `path.relative` is modelled by `relativeP` on normalized paths;
* a filesystem is an association list from paths to nodes (directory,
  file with data, or symbolic link with a stored destination), plus a
  set of read-denied paths (where `lstat` raises) and a set of
  write-protected directories (where link creation/removal raises);
* fallible filesystem primitives (`mkdirSync`, `symlinkSync`,
  `unlinkSync`) return `Except String`, mirroring thrown exceptions;
* `syncSkills`, `cleanSkills` and `getStatus` are translated
  statement-by-statement from src/sync.ts, threading the filesystem
  state explicitly and propagating uncaught exceptions as `.error`.

Model limitations: paths are identified with their normalized
component lists, so symbolic links occurring as intermediate
directory components (e.g. a symlinked canonical root) are outside
the model; `readdir` lists literal children of a path.
-/

/-- A filesystem path, as a list of components. -/
abbrev FPath := List String

/-- A filesystem node: directory, regular file with contents, or a
symbolic link holding a stored (relative) destination text. -/
inductive Node where
  | dir : Node
  | file (data : String) : Node
  | symlink (dest : FPath) : Node
deriving DecidableEq, Repr

/-- Whether a node is a symbolic link. -/
def Node.isLink : Node → Bool
  | .symlink _ => true
  | _ => false

/-- Whether a node is a directory. -/
def Node.isDir : Node → Bool
  | .dir => true
  | _ => false

/-- One step of path normalization, as performed left-to-right by
Node's `path.join` on an absolute path: `.` is dropped, `..` pops the
last component (excess `..` at the root is dropped). -/
def normStep (acc : FPath) (c : String) : FPath :=
  if c = "." then acc
  else if c = ".." then acc.dropLast
  else acc ++ [c]

/-- Normalize a root-anchored path: resolve `.` and `..` components. -/
def normalizeP (p : FPath) : FPath := p.foldl normStep []

/-- Node's `path.join(a, b)` for a root-anchored `a`: concatenate and
normalizeP. -/
def joinP (a b : FPath) : FPath := normalizeP (a ++ b)

/-- Node's `path.relative(from, to)` on normalized root-anchored
paths: drop the common prefix, then one `..` per remaining component
of `from`, followed by the remainder of `to`. -/
def relativeP : FPath → FPath → FPath
  | [], t => t
  | f :: fs, [] => List.replicate (f :: fs).length ".."
  | f :: fs, t :: ts =>
    if f = t then relativeP fs ts
    else List.replicate (f :: fs).length ".." ++ (t :: ts)

/-- Render a root-anchored path as the string the code manipulates. -/
def renderP (p : FPath) : String := "/" ++ String.intercalate "/" p

/-- JavaScript `String.prototype.startsWith`: `s.startsWith(pre)`. -/
def strStartsWith (s pre : String) : Bool := pre.toList.isPrefixOf s.toList

/-- The filesystem: entries (path to node), read-denied paths (where
`lstat`/`stat` raise), and write-protected directories (where
creating or removing entries raises). -/
structure FSys where
  entries : List (FPath × Node)
  denied : List FPath := []
  roDirs : List FPath := []
deriving DecidableEq, Repr

/-- Look up the node stored at a path (first match). -/
def findEntry : List (FPath × Node) → FPath → Option Node
  | [], _ => none
  | e :: es, p => if e.1 = p then some e.2 else findEntry es p

/-- Remove every entry stored at a path. -/
def removeEntry : List (FPath × Node) → FPath → List (FPath × Node)
  | [], _ => []
  | e :: es, p => if e.1 = p then removeEntry es p else e :: removeEntry es p

/-- The result of `lstatSync`: a node, `ENOENT`, or another error. -/
inductive LstatResult where
  | found (n : Node) : LstatResult
  | enoent : LstatResult
  | eperm : LstatResult
deriving DecidableEq, Repr

/-- `lstatSync` (no following): errors on denied paths. -/
def lstatSyncRes (fs : FSys) (p : FPath) : LstatResult :=
  if p ∈ fs.denied then .eperm
  else
    match findEntry fs.entries p with
    | some n => .found n
    | none => .enoent

/-- src/sync.ts `isSymlink`: `lstatSync(path).isSymbolicLink()` with a
catch-all returning `false`, so `ENOENT` and other errors alike give
`false`. -/
def isSymlink (fs : FSys) (p : FPath) : Bool :=
  match lstatSyncRes fs p with
  | .found (Node.symlink _) => true
  | _ => false

/-- Resolve a path by following symbolic links at its final
component, with fuel bounding chain length (cycles exhaust it). -/
def resolvePath (fs : FSys) : Nat → FPath → Option FPath
  | 0, _ => none
  | fuel + 1, p =>
    if p ∈ fs.denied then none
    else
      match findEntry fs.entries p with
      | some (Node.symlink d) => resolvePath fs fuel (joinP p.dropLast d)
      | some _ => some p
      | none => none

/-- `existsSync`: follows symbolic links; any error yields `false`. -/
def existsSync (fs : FSys) (p : FPath) : Bool :=
  (resolvePath fs (fs.entries.length + 1) p).isSome

/-- `readlinkSync` under the guard that the path is a symlink (the
default is unreachable at guarded call sites). -/
def readlinkD (fs : FSys) (p : FPath) : FPath :=
  match findEntry fs.entries p with
  | some (Node.symlink d) => d
  | _ => []

/-- The name of `q` as an immediate child of `p`, if it is one. -/
def childName (p q : FPath) : Option String :=
  if q.take p.length = p then
    match q.drop p.length with
    | [n] => some n
    | _ => none
  else none

/-- `readdirSync(p, { withFileTypes: true })`: the immediate children
of `p`, with their nodes, in entry-list order. -/
def childEntries (es : List (FPath × Node)) (p : FPath) : List (String × Node) :=
  es.filterMap (fun e => (childName p e.1).map (fun n => (n, e.2)))

/-- `unlinkSync`: errors in a write-protected directory or if absent;
otherwise removes the entry. -/
def unlinkSync (fs : FSys) (p : FPath) : Except String FSys :=
  if p.dropLast ∈ fs.roDirs then .error "EACCES: permission denied"
  else
    match findEntry fs.entries p with
    | none => .error "ENOENT: no such file or directory"
    | some _ => .ok { fs with entries := removeEntry fs.entries p }

/-- `symlinkSync(dest, p, 'dir')`: errors in a write-protected
directory or if `p` already has an entry; otherwise records a
symbolic link storing `dest` verbatim. -/
def symlinkSync (fs : FSys) (dest : FPath) (p : FPath) : Except String FSys :=
  if p.dropLast ∈ fs.roDirs then .error "EACCES: permission denied"
  else
    match findEntry fs.entries p with
    | some _ => .error "EEXIST: file already exists"
    | none => .ok { fs with entries := (p, Node.symlink dest) :: fs.entries }

/-- All nonempty prefixes of a path, shortest first. -/
def prefixesOf (p : FPath) : List FPath :=
  (List.range p.length).map (fun i => p.take (i + 1))

/-- Worker for `mkdirSync(p, { recursive: true })`: create each
missing prefix in order; error if a prefix exists as a non-directory
or its parent is write-protected. -/
def mkdirGo (fs : FSys) : List FPath → Except String FSys
  | [] => .ok fs
  | q :: qs =>
    match findEntry fs.entries q with
    | some Node.dir => mkdirGo fs qs
    | some _ => .error "ENOTDIR: not a directory"
    | none =>
      if q.dropLast ∈ fs.roDirs then .error "EACCES: permission denied"
      else mkdirGo { fs with entries := (q, Node.dir) :: fs.entries } qs

/-- `mkdirSync(p, { recursive: true })`. -/
def mkdirRec (fs : FSys) (p : FPath) : Except String FSys :=
  mkdirGo fs (prefixesOf p)

/-- src/sync.ts `CANONICAL_SOURCE = '.agents/skills'`. -/
def CANONICAL_SOURCE : FPath := [".agents", "skills"]

/-- A sync report entry (src/types.ts `SyncEntry`). -/
structure SyncEntry where
  skill : String
  agent : String
  source : FPath
  target : FPath
  reason : Option String := none
deriving DecidableEq, Repr

/-- A sync report (src/types.ts `SyncResult`). -/
structure SyncResult where
  created : List SyncEntry
  skipped : List SyncEntry
  failed : List SyncEntry
deriving DecidableEq, Repr

/-- Caller-supplied options (src/sync.ts `SyncOptions`): agent name to
skills-directory subpath, optional agent filter, preview flag. -/
structure SyncOptions where
  agents : List (String × FPath)
  filterAgents : Option (List String) := none
  dryRun : Bool := false

/-- The selected agents: `filterAgents` membership filter, or all. -/
def targetAgents (options : SyncOptions) : List (String × FPath) :=
  match options.filterAgents with
  | some f => options.agents.filter (fun a => f.contains a.1)
  | none => options.agents

/-- src/sync.ts `discoverSkills`: throw if the canonical source root
does not exist, else list its immediate subdirectory names. -/
def discoverSkills (fs : FSys) (root : FPath) : Except String (List String) :=
  let skillsDir := joinP root CANONICAL_SOURCE
  if existsSync fs skillsDir then
    .ok (((childEntries fs.entries skillsDir).filter (fun e => e.2.isDir)).map (fun e => e.1))
  else
    .error (".agents/skills does not exist in " ++ renderP root)

/-- The tail of the `syncSkills` loop body (src/sync.ts lines
95-103): create the symbolic link, unless in preview mode. -/
def syncCreate (root : FPath) (dryRun : Bool) (agentSkillsDir : FPath) (skill : String)
    (entry : SyncEntry) (fs : FSys) (res : SyncResult) : Except String (FSys × SyncResult) :=
  let source := joinP root (CANONICAL_SOURCE ++ [skill])
  let target := joinP agentSkillsDir [skill]
  let relativeSource := relativeP agentSkillsDir source
  if dryRun then
    .ok (fs, { res with created := res.created ++ [entry] })
  else
    match mkdirRec fs agentSkillsDir with
    | .error e => .error e
    | .ok fs2 =>
      match symlinkSync fs2 relativeSource target with
      | .error e => .error e
      | .ok fs3 => .ok (fs3, { res with created := res.created ++ [entry] })

/-- The body of the `syncSkills` loop for one (skill, agent) pair,
translated from src/sync.ts lines 64-104. -/
def syncStep (root : FPath) (dryRun : Bool) (agentName : String) (agentSkillsDir : FPath)
    (skill : String) (fs : FSys) (res : SyncResult) : Except String (FSys × SyncResult) :=
  let source := joinP root (CANONICAL_SOURCE ++ [skill])
  let target := joinP agentSkillsDir [skill]
  let entry : SyncEntry := { skill := skill, agent := agentName, source := source, target := target }
  if existsSync fs target || isSymlink fs target then
    if isSymlink fs target then
      let currentTarget := readlinkD fs target
      let expectedTarget := relativeP agentSkillsDir source
      if currentTarget = expectedTarget then
        .ok (fs, { res with skipped := res.skipped ++ [{ entry with reason := some "already linked" }] })
      else if dryRun then
        syncCreate root dryRun agentSkillsDir skill entry fs res
      else
        match unlinkSync fs target with
        | .error e => .error e
        | .ok fs1 => syncCreate root dryRun agentSkillsDir skill entry fs1 res
    else
      .ok (fs, { res with skipped := res.skipped ++ [{ entry with reason := some "real directory exists, skipping" }] })
  else
    syncCreate root dryRun agentSkillsDir skill entry fs res

/-- The inner `syncSkills` loop over discovered skills. -/
def syncSkillsLoop (root : FPath) (dryRun : Bool) (agentName : String) (agentSkillsDir : FPath) :
    List String → FSys → SyncResult → Except String (FSys × SyncResult)
  | [], fs, res => .ok (fs, res)
  | skill :: rest, fs, res =>
    match syncStep root dryRun agentName agentSkillsDir skill fs res with
    | .error e => .error e
    | .ok (fs', res') => syncSkillsLoop root dryRun agentName agentSkillsDir rest fs' res'

/-- The outer `syncSkills` loop over selected agents. -/
def syncAgentsLoop (root : FPath) (dryRun : Bool) (skills : List String) :
    List (String × FPath) → FSys → SyncResult → Except String (FSys × SyncResult)
  | [], fs, res => .ok (fs, res)
  | (agentName, skillsDirRel) :: rest, fs, res =>
    match syncSkillsLoop root dryRun agentName (joinP root skillsDirRel) skills fs res with
    | .error e => .error e
    | .ok (fs', res') => syncAgentsLoop root dryRun skills rest fs' res'

/-- src/sync.ts `syncSkills`: discover skills, then link each into
every selected agent's skills directory. -/
def syncSkills (fs : FSys) (root : FPath) (options : SyncOptions) :
    Except String (FSys × SyncResult) :=
  match discoverSkills fs root with
  | .error e => .error e
  | .ok skills => syncAgentsLoop root options.dryRun skills (targetAgents options) fs ⟨[], [], []⟩

/-- The body of the `cleanSkills` loop for one mirror entry,
translated from src/sync.ts lines 132-164. -/
def cleanStep (root : FPath) (dryRun : Bool) (agentName : String) (agentSkillsDir : FPath)
    (entryName : String) (fs : FSys) (res : SyncResult) : Except String (FSys × SyncResult) :=
  let target := joinP agentSkillsDir [entryName]
  let syncEntry : SyncEntry :=
    { skill := entryName, agent := agentName,
      source := joinP root (CANONICAL_SOURCE ++ [entryName]), target := target }
  if !(isSymlink fs target) then
    .ok (fs, { res with skipped := res.skipped ++ [{ syncEntry with reason := some "not a symlink, preserving" }] })
  else
    let linkTarget := readlinkD fs target
    let resolvedTarget := joinP agentSkillsDir linkTarget
    let canonicalDir := joinP root CANONICAL_SOURCE
    if !(strStartsWith (renderP resolvedTarget) (renderP canonicalDir)) then
      .ok (fs, { res with skipped := res.skipped ++ [{ syncEntry with reason := some "symlink points elsewhere, preserving" }] })
    else if dryRun then
      .ok (fs, { res with created := res.created ++ [syncEntry] })
    else
      match unlinkSync fs target with
      | .error e => .error e
      | .ok fs' => .ok (fs', { res with created := res.created ++ [syncEntry] })

/-- The inner `cleanSkills` loop over the mirror root's entries. -/
def cleanEntriesLoop (root : FPath) (dryRun : Bool) (agentName : String) (agentSkillsDir : FPath) :
    List String → FSys → SyncResult → Except String (FSys × SyncResult)
  | [], fs, res => .ok (fs, res)
  | name :: rest, fs, res =>
    match cleanStep root dryRun agentName agentSkillsDir name fs res with
    | .error e => .error e
    | .ok (fs', res') => cleanEntriesLoop root dryRun agentName agentSkillsDir rest fs' res'

/-- The outer `cleanSkills` loop over selected agents; a missing
mirror root is skipped. -/
def cleanAgentsLoop (root : FPath) (dryRun : Bool) :
    List (String × FPath) → FSys → SyncResult → Except String (FSys × SyncResult)
  | [], fs, res => .ok (fs, res)
  | (agentName, skillsDirRel) :: rest, fs, res =>
    let agentSkillsDir := joinP root skillsDirRel
    if existsSync fs agentSkillsDir then
      match cleanEntriesLoop root dryRun agentName agentSkillsDir
          ((childEntries fs.entries agentSkillsDir).map (fun e => e.1)) fs res with
      | .error e => .error e
      | .ok (fs', res') => cleanAgentsLoop root dryRun rest fs' res'
    else
      cleanAgentsLoop root dryRun rest fs res

/-- src/sync.ts `cleanSkills`: remove, from each selected agent's
mirror root, the symbolic links pointing back at the canonical
source (note: it never consults the canonical root's existence). -/
def cleanSkills (fs : FSys) (root : FPath) (options : SyncOptions) :
    Except String (FSys × SyncResult) :=
  cleanAgentsLoop root options.dryRun (targetAgents options) fs ⟨[], [], []⟩

/-- The three status buckets used by `getStatus`. -/
inductive SkillStatus where
  | linked : SkillStatus
  | unlinked : SkillStatus
  | wrong : SkillStatus
deriving DecidableEq, Repr

/-- `getStatus`'s per-skill classification (src/sync.ts lines
189-208): a symlink is `linked` iff its stored destination equals the
expected relative path textually; a non-symlink entry counts as
`linked`; otherwise `unlinked`. -/
def statusSkill (fs : FSys) (root : FPath) (agentSkillsDir : FPath) (skill : String) : SkillStatus :=
  let target := joinP agentSkillsDir [skill]
  let expectedTarget := relativeP agentSkillsDir (joinP root (CANONICAL_SOURCE ++ [skill]))
  if isSymlink fs target then
    if readlinkD fs target = expectedTarget then .linked else .wrong
  else if existsSync fs target then .linked
  else .unlinked

/-- A per-agent status report (src/sync.ts `StatusEntry`). -/
structure StatusEntry where
  agent : String
  skillsDir : FPath
  linked : List String
  unlinked : List String
  wrong : List String
deriving DecidableEq, Repr

/-- Build one agent's status report by bucketing every skill. -/
def statusAgent (fs : FSys) (root : FPath) (skills : List String)
    (agentName : String) (skillsDirRel : FPath) : StatusEntry :=
  let agentSkillsDir := joinP root skillsDirRel
  skills.foldl (fun st skill =>
    match statusSkill fs root agentSkillsDir skill with
    | .linked => { st with linked := st.linked ++ [skill] }
    | .unlinked => { st with unlinked := st.unlinked ++ [skill] }
    | .wrong => { st with wrong := st.wrong ++ [skill] })
    { agent := agentName, skillsDir := skillsDirRel, linked := [], unlinked := [], wrong := [] }

/-- src/sync.ts `getStatus`. -/
def getStatus (fs : FSys) (root : FPath) (options : SyncOptions) :
    Except String (List StatusEntry) :=
  match discoverSkills fs root with
  | .error e => .error e
  | .ok skills =>
    .ok ((targetAgents options).map (fun a => statusAgent fs root skills a.1 a.2))

/-! ### Path normalization lemmas -/

/-- A component that normalization keeps verbatim. -/
def cleanComp (c : String) : Prop := c ≠ "." ∧ c ≠ ".."

/-- A path all of whose components survive normalization verbatim. -/
def cleanPath (p : FPath) : Prop := ∀ c ∈ p, cleanComp c

instance (c : String) : Decidable (cleanComp c) := by
  unfold cleanComp; infer_instance

instance (p : FPath) : Decidable (cleanPath p) := by
  unfold cleanPath cleanComp; infer_instance

theorem cleanPath_append {a b : FPath} (ha : cleanPath a) (hb : cleanPath b) :
    cleanPath (a ++ b) := by
  intro c hc
  rcases List.mem_append.mp hc with h | h
  · exact ha c h
  · exact hb c h

theorem cleanPath_dropLast {a : FPath} (ha : cleanPath a) : cleanPath a.dropLast := by
  intro c hc
  exact ha c (List.dropLast_subset a hc)

theorem cleanPath_normStep {acc : FPath} (h : cleanPath acc) (c : String) :
    cleanPath (normStep acc c) := by
  unfold normStep
  split
  · exact h
  · split
    · exact cleanPath_dropLast h
    · intro x hx
      rcases List.mem_append.mp hx with hx | hx
      · exact h x hx
      · rcases List.mem_singleton.mp hx with rfl
        constructor <;> assumption

theorem cleanPath_foldl_normStep (l : FPath) :
    ∀ acc : FPath, cleanPath acc → cleanPath (l.foldl normStep acc) := by
  induction l with
  | nil => intro acc h; exact h
  | cons c l ih =>
    intro acc h
    exact ih (normStep acc c) (cleanPath_normStep h c)

theorem cleanPath_normalizeP (p : FPath) : cleanPath (normalizeP p) :=
  cleanPath_foldl_normStep p [] (by intro c hc; cases hc)

theorem cleanPath_joinP (a b : FPath) : cleanPath (joinP a b) :=
  cleanPath_normalizeP (a ++ b)

theorem foldl_normStep_of_clean (l : FPath) :
    ∀ acc : FPath, cleanPath l → l.foldl normStep acc = acc ++ l := by
  induction l with
  | nil => intro acc _; simp
  | cons c l ih =>
    intro acc h
    have hc : cleanComp c := h c (List.mem_cons_self c l)
    have hl : cleanPath l := fun x hx => h x (List.mem_cons_of_mem c hx)
    simp only [List.foldl_cons]
    rw [show normStep acc c = acc ++ [c] by unfold normStep; rw [if_neg hc.1, if_neg hc.2]]
    rw [ih (acc ++ [c]) hl]
    simp

theorem normalizeP_of_clean {p : FPath} (h : cleanPath p) : normalizeP p = p := by
  unfold normalizeP
  rw [foldl_normStep_of_clean p [] h]
  simp

theorem joinP_of_clean {a b : FPath} (ha : cleanPath a) (hb : cleanPath b) :
    joinP a b = a ++ b := by
  unfold joinP
  exact normalizeP_of_clean (cleanPath_append ha hb)

theorem joinP_single_of_clean {a : FPath} {s : String} (ha : cleanPath a) (hs : cleanComp s) :
    joinP a [s] = a ++ [s] :=
  joinP_of_clean ha (by intro c hc; rcases List.mem_singleton.mp hc with rfl; exact hs)

/-! ### Entry list lemmas -/

theorem findEntry_cons (e : FPath × Node) (es : List (FPath × Node)) (p : FPath) :
    findEntry (e :: es) p = if e.1 = p then some e.2 else findEntry es p := rfl

theorem findEntry_removeEntry (es : List (FPath × Node)) (q p : FPath) :
    findEntry (removeEntry es q) p = if p = q then none else findEntry es p := by
  induction es with
  | nil => simp [removeEntry, findEntry]
  | cons e es ih =>
    by_cases hq : e.1 = q
    · by_cases hp : p = q
      · subst hp
        simp [removeEntry, findEntry, hq, ih]
      · have h1 : e.1 ≠ p := by
          intro h
          exact hp (h.symm.trans hq)
        have h2 : ¬ q = p := fun h => hp h.symm
        simp [removeEntry, findEntry, hq, hp, h1, h2, ih]
    · by_cases hp : e.1 = p
      · have h1 : ¬ p = q := by
          intro h
          exact hq (hp.trans h)
        simp [removeEntry, findEntry, hq, hp, h1]
      · simp [removeEntry, findEntry, hq, hp, ih]

theorem findEntry_of_mem_nodup {es : List (FPath × Node)} {p : FPath} {n : Node}
    (hmem : (p, n) ∈ es) (hnd : (es.map Prod.fst).Nodup) : findEntry es p = some n := by
  induction es with
  | nil => cases hmem
  | cons e es ih =>
    rcases List.mem_cons.mp hmem with h | h
    · rw [← h]
      simp [findEntry]
    · have hnd' : (es.map Prod.fst).Nodup := (List.nodup_cons.mp hnd).2
      have hne : e.1 ≠ p := by
        intro hEq
        have : e.1 ∈ es.map Prod.fst := by
          rw [hEq]
          exact List.mem_map.mpr ⟨(p, n), h, rfl⟩
        exact (List.nodup_cons.mp hnd).1 this
      simp [findEntry, hne, ih h hnd']

theorem mem_of_findEntry {es : List (FPath × Node)} {p : FPath} {n : Node}
    (h : findEntry es p = some n) : (p, n) ∈ es := by
  induction es with
  | nil => cases h
  | cons e es ih =>
    by_cases he : e.1 = p
    · simp only [findEntry, he, if_pos, Option.some.injEq] at h
      have : e = (p, n) := by
        cases e
        simp only [Prod.mk.injEq]
        exact ⟨he, h⟩
      rw [← this]
      exact List.mem_cons_self _ _
    · simp only [findEntry, he, if_neg, if_false] at h
      exact List.mem_cons_of_mem _ (ih h)

/-! ### Inspection lemmas -/

theorem isSymlink_true_iff (fs : FSys) (p : FPath) :
    isSymlink fs p = true ↔ p ∉ fs.denied ∧ ∃ d, findEntry fs.entries p = some (Node.symlink d) := by
  unfold isSymlink lstatSyncRes
  by_cases hd : p ∈ fs.denied
  · simp [hd]
  · simp only [hd, if_neg, not_false_iff, true_and, if_false]
    cases hfe : findEntry fs.entries p with
    | none => simp
    | some n =>
      cases n <;> simp

theorem isSymlink_of_link {fs : FSys} {p : FPath} {d : FPath}
    (hd : p ∉ fs.denied) (hfe : findEntry fs.entries p = some (Node.symlink d)) :
    isSymlink fs p = true :=
  (isSymlink_true_iff fs p).mpr ⟨hd, d, hfe⟩

theorem isSymlink_eq_false_of_denied {fs : FSys} {p : FPath} (hd : p ∈ fs.denied) :
    isSymlink fs p = false := by
  unfold isSymlink lstatSyncRes
  simp [hd]

theorem isSymlink_eq_false_of_absent {fs : FSys} {p : FPath}
    (h : findEntry fs.entries p = none) : isSymlink fs p = false := by
  unfold isSymlink lstatSyncRes
  by_cases hd : p ∈ fs.denied <;> simp [hd, h]

theorem existsSync_of_nonlink {fs : FSys} {p : FPath} {n : Node}
    (hd : p ∉ fs.denied) (hfe : findEntry fs.entries p = some n) (hnl : n.isLink = false) :
    existsSync fs p = true := by
  unfold existsSync resolvePath
  cases n with
  | dir => simp [hd, hfe]
  | file data => simp [hd, hfe]
  | symlink d => simp [Node.isLink] at hnl

theorem existsSync_eq_false_of_absent {fs : FSys} {p : FPath}
    (h : findEntry fs.entries p = none) : existsSync fs p = false := by
  unfold existsSync resolvePath
  by_cases hd : p ∈ fs.denied <;> simp [hd, h]

theorem existsSync_eq_false_of_denied {fs : FSys} {p : FPath} (hd : p ∈ fs.denied) :
    existsSync fs p = false := by
  unfold existsSync resolvePath
  simp [hd]

theorem findEntry_isSome_of_existsSync {fs : FSys} {p : FPath}
    (h : existsSync fs p = true) : p ∉ fs.denied ∧ ∃ n, findEntry fs.entries p = some n := by
  unfold existsSync resolvePath at h
  by_cases hd : p ∈ fs.denied
  · simp [hd] at h
  · refine ⟨hd, ?_⟩
    cases hfe : findEntry fs.entries p with
    | none => simp [hd, hfe] at h
    | some n => exact ⟨n, rfl⟩

theorem findEntry_nonlink_of_real_branch {fs : FSys} {p : FPath}
    (hex : existsSync fs p = true) (hsl : isSymlink fs p = false) :
    ∃ n, findEntry fs.entries p = some n ∧ n.isLink = false := by
  obtain ⟨hd, n, hfe⟩ := findEntry_isSome_of_existsSync hex
  refine ⟨n, hfe, ?_⟩
  cases n with
  | dir => rfl
  | file data => rfl
  | symlink d => rw [isSymlink_of_link hd hfe] at hsl; cases hsl

/-! ### Primitive operation specifications -/

theorem unlinkSync_ok {fs fs' : FSys} {p : FPath} (h : unlinkSync fs p = .ok fs') :
    fs'.entries = removeEntry fs.entries p ∧ fs'.denied = fs.denied ∧ fs'.roDirs = fs.roDirs := by
  unfold unlinkSync at h
  by_cases hro : p.dropLast ∈ fs.roDirs
  · simp [hro] at h
  · simp only [hro, if_neg, if_false, not_false_iff] at h
    cases hfe : findEntry fs.entries p with
    | none => rw [hfe] at h; cases h
    | some n =>
      rw [hfe] at h
      cases h
      exact ⟨rfl, rfl, rfl⟩

theorem symlinkSync_ok {fs fs' : FSys} {dest p : FPath} (h : symlinkSync fs dest p = .ok fs') :
    fs'.entries = (p, Node.symlink dest) :: fs.entries ∧ findEntry fs.entries p = none ∧
      fs'.denied = fs.denied ∧ fs'.roDirs = fs.roDirs := by
  unfold symlinkSync at h
  by_cases hro : p.dropLast ∈ fs.roDirs
  · simp [hro] at h
  · simp only [hro, if_neg, if_false, not_false_iff] at h
    cases hfe : findEntry fs.entries p with
    | some n => rw [hfe] at h; cases h
    | none =>
      rw [hfe] at h
      cases h
      exact ⟨rfl, rfl, rfl, rfl⟩

theorem mkdirGo_ok {l : List FPath} :
    ∀ {fs fs' : FSys}, mkdirGo fs l = .ok fs' →
      fs'.denied = fs.denied ∧ fs'.roDirs = fs.roDirs ∧
      ∀ q, findEntry fs'.entries q = findEntry fs.entries q ∨
        (q ∈ l ∧ findEntry fs.entries q = none ∧ findEntry fs'.entries q = some Node.dir) := by
  induction l with
  | nil =>
    intro fs fs' h
    unfold mkdirGo at h
    cases h
    exact ⟨rfl, rfl, fun q => Or.inl rfl⟩
  | cons q0 qs ih =>
    intro fs fs' h
    unfold mkdirGo at h
    cases hfe : findEntry fs.entries q0 with
    | some n =>
      cases n with
      | dir =>
        rw [hfe] at h
        obtain ⟨h1, h2, h3⟩ := ih h
        refine ⟨h1, h2, fun q => ?_⟩
        rcases h3 q with h' | ⟨hq, h4, h5⟩
        · exact Or.inl h'
        · exact Or.inr ⟨List.mem_cons_of_mem _ hq, h4, h5⟩
      | file data => rw [hfe] at h; cases h
      | symlink d => rw [hfe] at h; cases h
    | none =>
      rw [hfe] at h
      by_cases hro : q0.dropLast ∈ fs.roDirs
      · rw [if_pos hro] at h; cases h
      · rw [if_neg hro] at h
        obtain ⟨h1, h2, h3⟩ := ih h
        refine ⟨h1, h2, fun q => ?_⟩
        rcases h3 q with h' | ⟨hq, h4, h5⟩
        · rw [h']
          by_cases hq0 : q0 = q
          · subst hq0
            exact Or.inr ⟨List.mem_cons_self _ _, hfe, by simp [findEntry]⟩
          · exact Or.inl (by simp [findEntry, hq0])
        · simp only [findEntry, if_neg] at h4
          by_cases hq0 : q0 = q
          · subst hq0
            exact Or.inr ⟨List.mem_cons_self _ _, hfe, h5⟩
          · rw [if_neg hq0] at h4
            exact Or.inr ⟨List.mem_cons_of_mem _ hq, h4, h5⟩

theorem mkdirGo_preserves_some {l : List FPath} {fs fs' : FSys} {q : FPath} {n : Node}
    (h : mkdirGo fs l = .ok fs') (hfe : findEntry fs.entries q = some n) :
    findEntry fs'.entries q = some n := by
  rcases (mkdirGo_ok h).2.2 q with h' | ⟨_, h4, _⟩
  · rw [h', hfe]
  · rw [h4] at hfe; cases hfe

/-! ### Children lemmas -/

theorem childName_eq_some_iff {p q : FPath} {s : String} :
    childName p q = some s ↔ q = p ++ [s] := by
  constructor
  · intro h
    unfold childName at h
    by_cases ht : q.take p.length = p
    · rw [if_pos ht] at h
      cases hd : q.drop p.length with
      | nil => rw [hd] at h; cases h
      | cons x xs =>
        cases xs with
        | nil =>
          rw [hd] at h
          cases h
          conv_lhs => rw [← List.take_append_drop p.length q]
          rw [ht, hd]
        | cons y ys => rw [hd] at h; cases h
    · rw [if_neg ht] at h; cases h
  · intro h
    subst h
    unfold childName
    rw [List.take_left' rfl, if_pos rfl, List.drop_left' rfl]

theorem childName_append (p : FPath) (s : String) : childName p (p ++ [s]) = some s :=
  childName_eq_some_iff.mpr rfl

theorem childEntries_cons_of_none {p q : FPath} {n : Node} {es : List (FPath × Node)}
    (h : childName p q = none) : childEntries ((q, n) :: es) p = childEntries es p := by
  unfold childEntries
  rw [List.filterMap_cons]
  simp [h]

theorem childEntries_removeEntry_of_none {p q : FPath} {es : List (FPath × Node)}
    (h : childName p q = none) : childEntries (removeEntry es q) p = childEntries es p := by
  induction es with
  | nil => rfl
  | cons e es ih =>
    by_cases hq : e.1 = q
    · have : childName p e.1 = none := by rw [hq]; exact h
      show childEntries (if e.1 = q then removeEntry es q else e :: removeEntry es q) p = _
      rw [if_pos hq, ih]
      unfold childEntries
      rw [List.filterMap_cons]
      simp [this]
    · show childEntries (if e.1 = q then removeEntry es q else e :: removeEntry es q) p = _
      rw [if_neg hq]
      unfold childEntries
      rw [List.filterMap_cons, List.filterMap_cons]
      cases hcn : childName p e.1 with
      | none => simpa [hcn] using ih
      | some x => simpa [hcn] using ih

theorem mem_childEntries_of_findEntry {es : List (FPath × Node)} {p : FPath} {s : String}
    {n : Node} (h : findEntry es (p ++ [s]) = some n) : (s, n) ∈ childEntries es p := by
  have hmem := mem_of_findEntry h
  unfold childEntries
  exact List.mem_filterMap.mpr ⟨(p ++ [s], n), hmem, by rw [childName_append]; rfl⟩

theorem prefixesOf_isPrefix {p q : FPath} (h : q ∈ prefixesOf p) : q <+: p := by
  unfold prefixesOf at h
  obtain ⟨i, _, rfl⟩ := List.mem_map.mp h
  exact List.take_prefix _ _

theorem mkdirGo_childEntries {c : FPath} {l : List FPath} :
    ∀ {fs fs' : FSys}, (∀ q ∈ l, childName c q = none) → mkdirGo fs l = .ok fs' →
      childEntries fs'.entries c = childEntries fs.entries c := by
  induction l with
  | nil =>
    intro fs fs' _ h
    unfold mkdirGo at h
    cases h
    rfl
  | cons q0 qs ih =>
    intro fs fs' hl h
    unfold mkdirGo at h
    cases hfe : findEntry fs.entries q0 with
    | some n =>
      cases n with
      | dir =>
        rw [hfe] at h
        exact ih (fun q hq => hl q (List.mem_cons_of_mem _ hq)) h
      | file data => rw [hfe] at h; cases h
      | symlink d => rw [hfe] at h; cases h
    | none =>
      rw [hfe] at h
      by_cases hro : q0.dropLast ∈ fs.roDirs
      · rw [if_pos hro] at h; cases h
      · rw [if_neg hro] at h
        have := ih (fun q hq => hl q (List.mem_cons_of_mem _ hq)) h
        rw [this]
        exact childEntries_cons_of_none (hl q0 (List.mem_cons_self _ _))

/-! ### Reconciliation engine: per-step lemmas -/

/-- The relative destination the engine generates for a pair. -/
def expectedFor (root dir : FPath) (s : String) : FPath :=
  relativeP dir (joinP root (CANONICAL_SOURCE ++ [s]))

/-- The state at a pair's link path that a re-run will skip: a correct
symbolic link, or a real (non-symlink) entry. -/
def goodAt (fs : FSys) (root dir : FPath) (s : String) (n : Node) : Prop :=
  findEntry fs.entries (joinP dir [s]) = some n ∧
    (n = Node.symlink (expectedFor root dir s) ∨ n.isLink = false)

theorem syncCreate_dry (root : FPath) (dir : FPath) (s : String) (entry : SyncEntry)
    (fs : FSys) (res : SyncResult) :
    syncCreate root true dir s entry fs res =
      .ok (fs, { res with created := res.created ++ [entry] }) := by
  unfold syncCreate
  simp

theorem syncCreate_wet_ok {root : FPath} {dir : FPath} {s : String} {entry : SyncEntry}
    {fs fs' : FSys} {res res' : SyncResult}
    (h : syncCreate root false dir s entry fs res = .ok (fs', res')) :
    ∃ fs2, mkdirRec fs dir = .ok fs2 ∧
      symlinkSync fs2 (expectedFor root dir s) (joinP dir [s]) = .ok fs' ∧
      res' = { res with created := res.created ++ [entry] } := by
  unfold syncCreate at h
  simp only [Bool.false_eq_true, if_false] at h
  split at h
  · cases h
  next fs2 hmk =>
    split at h
    · cases h
    next fs3 hsl =>
      cases h
      exact ⟨fs2, hmk, hsl, rfl⟩

/-- The report entry generated for a (skill, agent) pair, with a
given reason field. -/
def pairEntryR (root : FPath) (a : String) (dir : FPath) (s : String) (r : Option String) :
    SyncEntry :=
  { skill := s, agent := a, source := joinP root (CANONICAL_SOURCE ++ [s]),
    target := joinP dir [s], reason := r }

theorem syncStep_ok_cases {root : FPath} {dry : Bool} {a : String} {dir : FPath} {s : String}
    {fs fs' : FSys} {res res' : SyncResult}
    (h : syncStep root dry a dir s fs res = .ok (fs', res')) :
    (isSymlink fs (joinP dir [s]) = true ∧
       readlinkD fs (joinP dir [s]) = expectedFor root dir s ∧ fs' = fs ∧
       res' = { res with skipped := res.skipped ++
         [pairEntryR root a dir s (some "already linked")] }) ∨
    (existsSync fs (joinP dir [s]) = true ∧ isSymlink fs (joinP dir [s]) = false ∧ fs' = fs ∧
       res' = { res with skipped := res.skipped ++
         [pairEntryR root a dir s (some "real directory exists, skipping")] }) ∨
    (dry = true ∧
       (isSymlink fs (joinP dir [s]) = true ∨ existsSync fs (joinP dir [s]) = false) ∧ fs' = fs ∧
       res' = { res with created := res.created ++ [pairEntryR root a dir s none] }) ∨
    (dry = false ∧ isSymlink fs (joinP dir [s]) = true ∧
       readlinkD fs (joinP dir [s]) ≠ expectedFor root dir s ∧
       ∃ fs1 fs2, unlinkSync fs (joinP dir [s]) = .ok fs1 ∧ mkdirRec fs1 dir = .ok fs2 ∧
         symlinkSync fs2 (expectedFor root dir s) (joinP dir [s]) = .ok fs' ∧
         res' = { res with created := res.created ++ [pairEntryR root a dir s none] }) ∨
    (dry = false ∧ existsSync fs (joinP dir [s]) = false ∧ isSymlink fs (joinP dir [s]) = false ∧
       ∃ fs2, mkdirRec fs dir = .ok fs2 ∧
         symlinkSync fs2 (expectedFor root dir s) (joinP dir [s]) = .ok fs' ∧
         res' = { res with created := res.created ++ [pairEntryR root a dir s none] }) := by
  unfold syncStep at h
  by_cases hsl : isSymlink fs (joinP dir [s]) = true
  · simp only [hsl, Bool.or_true, if_true, if_pos] at h
    by_cases heq : readlinkD fs (joinP dir [s]) = relativeP dir (joinP root (CANONICAL_SOURCE ++ [s]))
    · rw [if_pos heq] at h
      cases h
      exact Or.inl ⟨hsl, heq, rfl, rfl⟩
    · rw [if_neg heq] at h
      cases hdry : dry with
      | true =>
        subst hdry
        rw [if_pos rfl, syncCreate_dry] at h
        cases h
        exact Or.inr (Or.inr (Or.inl ⟨rfl, Or.inl hsl, rfl, rfl⟩))
      | false =>
        subst hdry
        rw [if_neg (by simp)] at h
        cases hul : unlinkSync fs (joinP dir [s]) with
        | error e => rw [hul] at h; cases h
        | ok fs1 =>
          rw [hul] at h
          simp only at h
          obtain ⟨fs2, hmk, hslk, hres⟩ := syncCreate_wet_ok h
          exact Or.inr (Or.inr (Or.inr (Or.inl ⟨rfl, hsl, heq, fs1, fs2, rfl, hmk, hslk, hres⟩)))
  · have hslf : isSymlink fs (joinP dir [s]) = false := by
      revert hsl; cases isSymlink fs (joinP dir [s]) <;> simp
    by_cases hex : existsSync fs (joinP dir [s]) = true
    · simp only [hslf, hex, Bool.true_or, if_true, Bool.false_eq_true, if_false] at h
      cases h
      exact Or.inr (Or.inl ⟨hex, hslf, rfl, rfl⟩)
    · have hexf : existsSync fs (joinP dir [s]) = false := by
        revert hex; cases existsSync fs (joinP dir [s]) <;> simp
      simp only [hslf, hexf, Bool.or_false, Bool.false_eq_true, if_false] at h
      cases hdry : dry with
      | true =>
        subst hdry
        rw [syncCreate_dry] at h
        cases h
        exact Or.inr (Or.inr (Or.inl ⟨rfl, Or.inr hexf, rfl, rfl⟩))
      | false =>
        subst hdry
        obtain ⟨fs2, hmk, hslk, hres⟩ := syncCreate_wet_ok h
        exact Or.inr (Or.inr (Or.inr (Or.inr ⟨rfl, hexf, hslf, fs2, hmk, hslk, hres⟩)))

theorem readlinkD_of_link {fs : FSys} {p d : FPath}
    (h : findEntry fs.entries p = some (Node.symlink d)) : readlinkD fs p = d := by
  unfold readlinkD
  rw [h]

theorem snoc_inj {dir dir0 : FPath} {s s0 : String} (h : dir ++ [s] = dir0 ++ [s0]) :
    dir = dir0 ∧ s = s0 := by
  obtain ⟨h1, h2⟩ := List.append_inj' h rfl
  exact ⟨h1, by injection h2⟩

theorem mkdirRec_ok {fs fs' : FSys} {p : FPath} (h : mkdirRec fs p = .ok fs') :
    fs'.denied = fs.denied ∧ fs'.roDirs = fs.roDirs ∧
      ∀ q, findEntry fs'.entries q = findEntry fs.entries q ∨
        (q <+: p ∧ findEntry fs.entries q = none ∧ findEntry fs'.entries q = some Node.dir) := by
  obtain ⟨h1, h2, h3⟩ := mkdirGo_ok h
  refine ⟨h1, h2, fun q => ?_⟩
  rcases h3 q with h' | ⟨hq, h4, h5⟩
  · exact Or.inl h'
  · exact Or.inr ⟨prefixesOf_isPrefix hq, h4, h5⟩

theorem mkdirRec_preserves_some {fs fs' : FSys} {p q : FPath} {n : Node}
    (h : mkdirRec fs p = .ok fs') (hfe : findEntry fs.entries q = some n) :
    findEntry fs'.entries q = some n :=
  mkdirGo_preserves_some h hfe

theorem syncStep_denied_ro {root : FPath} {dry : Bool} {a : String} {dir : FPath} {s : String}
    {fs fs' : FSys} {res res' : SyncResult}
    (h : syncStep root dry a dir s fs res = .ok (fs', res')) :
    fs'.denied = fs.denied ∧ fs'.roDirs = fs.roDirs := by
  rcases syncStep_ok_cases h with ⟨_, _, rfl, _⟩ | ⟨_, _, rfl, _⟩ | ⟨_, _, rfl, _⟩ |
    ⟨_, _, _, fs1, fs2, hul, hmk, hslk, _⟩ | ⟨_, _, _, fs2, hmk, hslk, _⟩
  · exact ⟨rfl, rfl⟩
  · exact ⟨rfl, rfl⟩
  · exact ⟨rfl, rfl⟩
  · obtain ⟨_, hd1, hr1⟩ := unlinkSync_ok hul
    obtain ⟨hd2, hr2, _⟩ := mkdirRec_ok hmk
    obtain ⟨_, _, hd3, hr3⟩ := symlinkSync_ok hslk
    exact ⟨hd3.trans (hd2.trans hd1), hr3.trans (hr2.trans hr1)⟩
  · obtain ⟨hd2, hr2, _⟩ := mkdirRec_ok hmk
    obtain ⟨_, _, hd3, hr3⟩ := symlinkSync_ok hslk
    exact ⟨hd3.trans hd2, hr3.trans hr2⟩

theorem syncStep_preserves_nonlink {root : FPath} {dry : Bool} {a : String} {dir : FPath}
    {s : String} {fs fs' : FSys} {res res' : SyncResult} {q : FPath} {n : Node}
    (h : syncStep root dry a dir s fs res = .ok (fs', res'))
    (hfe : findEntry fs.entries q = some n) (hnl : n.isLink = false) :
    findEntry fs'.entries q = some n := by
  rcases syncStep_ok_cases h with ⟨_, _, rfl, _⟩ | ⟨_, _, rfl, _⟩ | ⟨_, _, rfl, _⟩ |
    ⟨_, hsl, _, fs1, fs2, hul, hmk, hslk, _⟩ | ⟨_, _, _, fs2, hmk, hslk, _⟩
  · exact hfe
  · exact hfe
  · exact hfe
  · obtain ⟨he1, _, _⟩ := unlinkSync_ok hul
    obtain ⟨he3, hnone, _, _⟩ := symlinkSync_ok hslk
    have hq : q ≠ joinP dir [s] := by
      intro hEq
      obtain ⟨_, d, hfeL⟩ := (isSymlink_true_iff _ _).mp hsl
      rw [hEq] at hfe
      rw [hfeL] at hfe
      cases hfe
      simp [Node.isLink] at hnl
    have h1 : findEntry fs1.entries q = some n := by
      rw [he1, findEntry_removeEntry, if_neg hq, hfe]
    have h2 : findEntry fs2.entries q = some n := mkdirRec_preserves_some hmk h1
    rw [he3, findEntry_cons, if_neg (fun hEq => hq hEq.symm), h2]
  · obtain ⟨he3, hnone, _, _⟩ := symlinkSync_ok hslk
    have h2 : findEntry fs2.entries q = some n := mkdirRec_preserves_some hmk hfe
    have hq : joinP dir [s] ≠ q := by
      intro hEq
      rw [← hEq] at h2
      rw [h2] at hnone
      cases hnone
    rw [he3, findEntry_cons, if_neg hq, h2]

theorem syncStep_establishes {root : FPath} {a : String} {dir : FPath} {s : String}
    {fs fs' : FSys} {res res' : SyncResult}
    (h : syncStep root false a dir s fs res = .ok (fs', res')) :
    ∃ n, goodAt fs' root dir s n := by
  rcases syncStep_ok_cases h with ⟨hsl, heq, rfl, _⟩ | ⟨hex, hslf, rfl, _⟩ | ⟨hdt, _, _, _⟩ |
    ⟨_, _, _, fs1, fs2, hul, hmk, hslk, _⟩ | ⟨_, _, _, fs2, hmk, hslk, _⟩
  · obtain ⟨_, d, hfe⟩ := (isSymlink_true_iff _ _).mp hsl
    rw [readlinkD_of_link hfe] at heq
    subst heq
    exact ⟨Node.symlink (expectedFor root dir s), hfe, Or.inl rfl⟩
  · obtain ⟨n, hfe, hnl⟩ := findEntry_nonlink_of_real_branch hex hslf
    exact ⟨n, hfe, Or.inr hnl⟩
  · cases hdt
  · obtain ⟨he3, _, _, _⟩ := symlinkSync_ok hslk
    refine ⟨Node.symlink (expectedFor root dir s), ?_, Or.inl rfl⟩
    rw [he3, findEntry_cons, if_pos rfl]
  · obtain ⟨he3, _, _, _⟩ := symlinkSync_ok hslk
    refine ⟨Node.symlink (expectedFor root dir s), ?_, Or.inl rfl⟩
    rw [he3, findEntry_cons, if_pos rfl]

theorem syncStep_preserves_good {root : FPath} {dry : Bool} {a : String} {dir : FPath}
    {s : String} {fs fs' : FSys} {res res' : SyncResult} {dir0 : FPath} {s0 : String} {n0 : Node}
    (hdir : cleanPath dir) (hs : cleanComp s) (hdir0 : cleanPath dir0) (hs0 : cleanComp s0)
    (h : syncStep root dry a dir s fs res = .ok (fs', res'))
    (hg : goodAt fs root dir0 s0 n0) : goodAt fs' root dir0 s0 n0 := by
  obtain ⟨hfe0, hn0⟩ := hg
  have jt : joinP dir [s] = dir ++ [s] := joinP_single_of_clean hdir hs
  have jt0 : joinP dir0 [s0] = dir0 ++ [s0] := joinP_single_of_clean hdir0 hs0
  refine ⟨?_, hn0⟩
  rcases syncStep_ok_cases h with ⟨_, _, rfl, _⟩ | ⟨_, _, rfl, _⟩ | ⟨_, _, rfl, _⟩ |
    ⟨_, hsl, hne, fs1, fs2, hul, hmk, hslk, _⟩ | ⟨_, _, _, fs2, hmk, hslk, _⟩
  · exact hfe0
  · exact hfe0
  · exact hfe0
  · by_cases ht : joinP dir [s] = joinP dir0 [s0]
    · exfalso
      obtain ⟨hdd, hss⟩ := snoc_inj ((jt.symm.trans ht).trans jt0)
      subst hdd
      subst hss
      rcases hn0 with hEq | hnl
      · subst hEq
        rw [ht] at hne
        exact hne (readlinkD_of_link hfe0)
      · obtain ⟨_, d, hfeL⟩ := (isSymlink_true_iff _ _).mp hsl
        rw [ht] at hfeL
        rw [hfeL] at hfe0
        cases hfe0
        simp [Node.isLink] at hnl
    · obtain ⟨he1, _, _⟩ := unlinkSync_ok hul
      obtain ⟨he3, _, _, _⟩ := symlinkSync_ok hslk
      have h1 : findEntry fs1.entries (joinP dir0 [s0]) = some n0 := by
        rw [he1, findEntry_removeEntry, if_neg (fun hEq => ht hEq.symm), hfe0]
      have h2 := mkdirRec_preserves_some hmk h1
      rw [he3, findEntry_cons, if_neg ht, h2]
  · by_cases ht : joinP dir [s] = joinP dir0 [s0]
    · exfalso
      obtain ⟨he3, hnone, _, _⟩ := symlinkSync_ok hslk
      have h2 := mkdirRec_preserves_some hmk (ht ▸ hfe0)
      rw [h2] at hnone
      cases hnone
    · obtain ⟨he3, _, _, _⟩ := symlinkSync_ok hslk
      have h2 := mkdirRec_preserves_some hmk hfe0
      rw [he3, findEntry_cons, if_neg ht, h2]

theorem syncStep_frame {root : FPath} {dry : Bool} {a : String} {dir : FPath} {s : String}
    {fs fs' : FSys} {res res' : SyncResult}
    (hdir : cleanPath dir) (hs : cleanComp s)
    (h : syncStep root dry a dir s fs res = .ok (fs', res')) :
    ∀ q, findEntry fs'.entries q = findEntry fs.entries q ∨ q = dir ++ [s] ∨ q <+: dir := by
  intro q
  have jt : joinP dir [s] = dir ++ [s] := joinP_single_of_clean hdir hs
  by_cases hq : q = dir ++ [s]
  · exact Or.inr (Or.inl hq)
  rcases syncStep_ok_cases h with ⟨_, _, rfl, _⟩ | ⟨_, _, rfl, _⟩ | ⟨_, _, rfl, _⟩ |
    ⟨_, _, _, fs1, fs2, hul, hmk, hslk, _⟩ | ⟨_, _, _, fs2, hmk, hslk, _⟩
  · exact Or.inl rfl
  · exact Or.inl rfl
  · exact Or.inl rfl
  · obtain ⟨he1, _, _⟩ := unlinkSync_ok hul
    obtain ⟨he3, _, _, _⟩ := symlinkSync_ok hslk
    rcases (mkdirRec_ok hmk).2.2 q with hmq | ⟨hpre, _, _⟩
    · left
      rw [he3, findEntry_cons, if_neg (fun hEq => hq (jt ▸ hEq.symm)), hmq,
        he1, findEntry_removeEntry, if_neg (fun hEq => hq (jt ▸ hEq))]
    · exact Or.inr (Or.inr hpre)
  · obtain ⟨he3, _, _, _⟩ := symlinkSync_ok hslk
    rcases (mkdirRec_ok hmk).2.2 q with hmq | ⟨hpre, _, _⟩
    · left
      rw [he3, findEntry_cons, if_neg (fun hEq => hq (jt ▸ hEq.symm)), hmq]
    · exact Or.inr (Or.inr hpre)

theorem syncStep_res {root : FPath} {dry : Bool} {a : String} {dir : FPath} {s : String}
    {fs fs' : FSys} {res res' : SyncResult}
    (h : syncStep root dry a dir s fs res = .ok (fs', res')) :
    res'.failed = res.failed ∧
      ((∃ r, res'.skipped = res.skipped ++ [pairEntryR root a dir s (some r)] ∧
          res'.created = res.created) ∨
        (res'.created = res.created ++ [pairEntryR root a dir s none] ∧
          res'.skipped = res.skipped)) := by
  rcases syncStep_ok_cases h with ⟨_, _, _, rfl⟩ | ⟨_, _, _, rfl⟩ | ⟨_, _, _, rfl⟩ |
    ⟨_, _, _, fs1, fs2, _, _, _, rfl⟩ | ⟨_, _, _, fs2, _, _, rfl⟩
  · exact ⟨rfl, Or.inl ⟨"already linked", rfl, rfl⟩⟩
  · exact ⟨rfl, Or.inl ⟨"real directory exists, skipping", rfl, rfl⟩⟩
  · exact ⟨rfl, Or.inr ⟨rfl, rfl⟩⟩
  · exact ⟨rfl, Or.inr ⟨rfl, rfl⟩⟩
  · exact ⟨rfl, Or.inr ⟨rfl, rfl⟩⟩

theorem syncStep_created_excl {root : FPath} {dry : Bool} {a : String} {dir : FPath} {s : String}
    {fs fs' : FSys} {res res' : SyncResult} {q : FPath} {n : Node}
    (h : syncStep root dry a dir s fs res = .ok (fs', res'))
    (hfe : findEntry fs.entries q = some n) (hnl : n.isLink = false) (hden : q ∉ fs.denied) :
    res'.created = res.created ∨
      (res'.created = res.created ++ [pairEntryR root a dir s none] ∧ joinP dir [s] ≠ q) := by
  have hslq : isSymlink fs q = false := by
    cases hq : isSymlink fs q
    · rfl
    · obtain ⟨_, d, hfeL⟩ := (isSymlink_true_iff _ _).mp hq
      rw [hfeL] at hfe
      cases hfe
      simp [Node.isLink] at hnl
  have hexq : existsSync fs q = true := existsSync_of_nonlink hden hfe hnl
  rcases syncStep_ok_cases h with ⟨_, _, _, rfl⟩ | ⟨_, _, _, rfl⟩ | ⟨_, hbr, _, rfl⟩ |
    ⟨_, hsl, _, fs1, fs2, _, _, _, rfl⟩ | ⟨_, hex, _, fs2, _, _, rfl⟩
  · exact Or.inl rfl
  · exact Or.inl rfl
  · refine Or.inr ⟨rfl, fun hEq => ?_⟩
    rcases hbr with hbr | hbr
    · rw [hEq, hslq] at hbr; cases hbr
    · rw [hEq, hexq] at hbr; cases hbr
  · refine Or.inr ⟨rfl, fun hEq => ?_⟩
    rw [hEq, hslq] at hsl
    cases hsl
  · refine Or.inr ⟨rfl, fun hEq => ?_⟩
    rw [hEq, hexq] at hex
    cases hex

theorem childName_none_of_under {c dir : FPath} {q : FPath}
    (hnn : ¬ (c.length < dir.length ∧ c <+: dir))
    (hq : q <+: dir) : childName c q = none := by
  cases hcn : childName c q with
  | none => rfl
  | some x =>
    exfalso
    have hqe : q = c ++ [x] := childName_eq_some_iff.mp hcn
    apply hnn
    constructor
    · have h1 : q.length ≤ dir.length := hq.length_le
      rw [hqe] at h1
      simp at h1
      omega
    · exact (hqe ▸ (List.prefix_append c [x])).trans hq

theorem syncStep_canon {c : FPath} {root : FPath} {dry : Bool} {a : String} {dir : FPath}
    {s : String} {fs fs' : FSys} {res res' : SyncResult}
    (hdir : cleanPath dir) (hs : cleanComp s)
    (hnn : ¬ (c.length < dir.length ∧ c <+: dir))
    (hsk : dir = c → findEntry fs.entries (c ++ [s]) = some Node.dir)
    (h : syncStep root dry a dir s fs res = .ok (fs', res')) :
    childEntries fs'.entries c = childEntries fs.entries c := by
  have jt : joinP dir [s] = dir ++ [s] := joinP_single_of_clean hdir hs
  have hmknone : ∀ q ∈ prefixesOf dir, childName c q = none := fun q hq =>
    childName_none_of_under hnn (prefixesOf_isPrefix hq)
  rcases syncStep_ok_cases h with ⟨_, _, rfl, _⟩ | ⟨_, _, rfl, _⟩ | ⟨_, _, rfl, _⟩ |
    ⟨_, hsl, _, fs1, fs2, hul, hmk, hslk, _⟩ | ⟨_, _, _, fs2, hmk, hslk, _⟩
  · rfl
  · rfl
  · rfl
  · have htn : childName c (joinP dir [s]) = none := by
      cases hcn : childName c (joinP dir [s]) with
      | none => rfl
      | some x =>
        exfalso
        have hqe : joinP dir [s] = c ++ [x] := childName_eq_some_iff.mp hcn
        obtain ⟨hdc, hsx⟩ := snoc_inj ((jt.symm.trans hqe).symm)
        obtain ⟨_, d, hfeL⟩ := (isSymlink_true_iff _ _).mp hsl
        have := hsk hdc.symm
        rw [← hsx, ← hqe] at this
        rw [hfeL] at this
        cases this
    obtain ⟨he1, _, _⟩ := unlinkSync_ok hul
    obtain ⟨he3, _, _, _⟩ := symlinkSync_ok hslk
    rw [he3, childEntries_cons_of_none htn, mkdirGo_childEntries hmknone hmk,
      he1, childEntries_removeEntry_of_none htn]
  · have htn : childName c (joinP dir [s]) = none := by
      cases hcn : childName c (joinP dir [s]) with
      | none => rfl
      | some x =>
        exfalso
        have hqe : joinP dir [s] = c ++ [x] := childName_eq_some_iff.mp hcn
        obtain ⟨hdc, hsx⟩ := snoc_inj ((jt.symm.trans hqe).symm)
        obtain ⟨he3, hnone, _, _⟩ := symlinkSync_ok hslk
        have hdirfe := hsk hdc.symm
        rw [← hsx, ← hqe] at hdirfe
        have := mkdirRec_preserves_some hmk hdirfe
        rw [this] at hnone
        cases hnone
    obtain ⟨he3, _, _, _⟩ := symlinkSync_ok hslk
    rw [he3, childEntries_cons_of_none htn, mkdirGo_childEntries hmknone hmk]

theorem syncStep_on_linked {root : FPath} {dry : Bool} {a : String} {dir : FPath} {s : String}
    {fs : FSys} {res : SyncResult} {n : Node}
    (hnden : joinP dir [s] ∉ fs.denied) (hg : goodAt fs root dir s n) :
    syncStep root dry a dir s fs res = .ok (fs,
      { res with skipped := res.skipped ++ [pairEntryR root a dir s
          (if n.isLink then some "already linked"
           else some "real directory exists, skipping")] }) := by
  obtain ⟨hfe, hn⟩ := hg
  rcases hn with hEq | hnl
  · subst hEq
    have hsl : isSymlink fs (joinP dir [s]) = true := isSymlink_of_link hnden hfe
    unfold syncStep
    simp only [hsl, Bool.or_true, if_true, readlinkD_of_link hfe]
    rw [if_pos (show expectedFor root dir s =
      relativeP dir (joinP root (CANONICAL_SOURCE ++ [s])) from rfl)]
    rfl
  · have hsl : isSymlink fs (joinP dir [s]) = false := by
      cases hq : isSymlink fs (joinP dir [s])
      · rfl
      · obtain ⟨_, d, hfeL⟩ := (isSymlink_true_iff _ _).mp hq
        rw [hfeL] at hfe
        cases hfe
        simp [Node.isLink] at hnl
    have hex : existsSync fs (joinP dir [s]) = true := existsSync_of_nonlink hnden hfe hnl
    unfold syncStep
    simp only [hsl, hex, Bool.true_or, if_true, Bool.false_eq_true, if_false]
    rw [hnl]
    rfl

/-! ### Reconciliation engine: inner-loop lemmas -/

theorem syncSkillsLoop_denied_ro {root : FPath} {dry : Bool} {a : String} {dir : FPath} :
    ∀ {skills : List String} {fs fs' : FSys} {res res' : SyncResult},
      syncSkillsLoop root dry a dir skills fs res = .ok (fs', res') →
      fs'.denied = fs.denied ∧ fs'.roDirs = fs.roDirs := by
  intro skills
  induction skills with
  | nil =>
    intro fs fs' res res' h
    cases h
    exact ⟨rfl, rfl⟩
  | cons s rest ih =>
    intro fs fs' res res' h
    unfold syncSkillsLoop at h
    cases hst : syncStep root dry a dir s fs res with
    | error e => rw [hst] at h; cases h
    | ok p =>
      rw [hst] at h
      obtain ⟨h1, h2⟩ := syncStep_denied_ro hst
      obtain ⟨h3, h4⟩ := ih h
      exact ⟨h3.trans h1, h4.trans h2⟩

theorem syncSkillsLoop_preserves_nonlink {root : FPath} {dry : Bool} {a : String} {dir : FPath} :
    ∀ {skills : List String} {fs fs' : FSys} {res res' : SyncResult} {q : FPath} {n : Node},
      syncSkillsLoop root dry a dir skills fs res = .ok (fs', res') →
      findEntry fs.entries q = some n → n.isLink = false →
      findEntry fs'.entries q = some n := by
  intro skills
  induction skills with
  | nil =>
    intro fs fs' res res' q n h hfe _
    cases h
    exact hfe
  | cons s rest ih =>
    intro fs fs' res res' q n h hfe hnl
    unfold syncSkillsLoop at h
    cases hst : syncStep root dry a dir s fs res with
    | error e => rw [hst] at h; cases h
    | ok p =>
      rw [hst] at h
      exact ih h (syncStep_preserves_nonlink hst hfe hnl) hnl

theorem syncSkillsLoop_preserves_good {root : FPath} {dry : Bool} {a : String} {dir : FPath}
    {dir0 : FPath} {s0 : String} {n0 : Node}
    (hdir : cleanPath dir) (hdir0 : cleanPath dir0) (hs0 : cleanComp s0) :
    ∀ {skills : List String} {fs fs' : FSys} {res res' : SyncResult},
      (∀ s ∈ skills, cleanComp s) →
      syncSkillsLoop root dry a dir skills fs res = .ok (fs', res') →
      goodAt fs root dir0 s0 n0 → goodAt fs' root dir0 s0 n0 := by
  intro skills
  induction skills with
  | nil =>
    intro fs fs' res res' _ h hg
    cases h
    exact hg
  | cons s rest ih =>
    intro fs fs' res res' hcl h hg
    unfold syncSkillsLoop at h
    cases hst : syncStep root dry a dir s fs res with
    | error e => rw [hst] at h; cases h
    | ok p =>
      rw [hst] at h
      exact ih (fun x hx => hcl x (List.mem_cons_of_mem _ hx)) h
        (syncStep_preserves_good hdir (hcl s (List.mem_cons_self _ _)) hdir0 hs0 hst hg)

theorem syncSkillsLoop_establishes {root : FPath} {a : String} {dir : FPath}
    (hdir : cleanPath dir) :
    ∀ {skills : List String} {fs fs' : FSys} {res res' : SyncResult},
      (∀ s ∈ skills, cleanComp s) →
      syncSkillsLoop root false a dir skills fs res = .ok (fs', res') →
      ∀ s ∈ skills, ∃ n, goodAt fs' root dir s n := by
  intro skills
  induction skills with
  | nil =>
    intro fs fs' res res' _ _ s hs
    cases hs
  | cons s0 rest ih =>
    intro fs fs' res res' hcl h s hs
    unfold syncSkillsLoop at h
    cases hst : syncStep root false a dir s0 fs res with
    | error e => rw [hst] at h; cases h
    | ok p =>
      rw [hst] at h
      rcases List.mem_cons.mp hs with rfl | hs'
      · obtain ⟨n, hn⟩ := syncStep_establishes hst
        exact ⟨n, syncSkillsLoop_preserves_good hdir hdir (hcl s (List.mem_cons_self _ _))
          (fun x hx => hcl x (List.mem_cons_of_mem _ hx)) h hn⟩
      · exact ih (fun x hx => hcl x (List.mem_cons_of_mem _ hx)) h s hs'

theorem syncSkillsLoop_res {root : FPath} {dry : Bool} {a : String} {dir : FPath} :
    ∀ {skills : List String} {fs fs' : FSys} {res res' : SyncResult},
      syncSkillsLoop root dry a dir skills fs res = .ok (fs', res') →
      res'.failed = res.failed ∧
        ∃ lc ls, res'.created = res.created ++ lc ∧ res'.skipped = res.skipped ++ ls ∧
          ∀ e ∈ lc ++ ls, ∃ s ∈ skills, ∃ r, e = pairEntryR root a dir s r := by
  intro skills
  induction skills with
  | nil =>
    intro fs fs' res res' h
    cases h
    exact ⟨rfl, [], [], by simp, by simp, by simp⟩
  | cons s rest ih =>
    intro fs fs' res res' h
    unfold syncSkillsLoop at h
    cases hst : syncStep root dry a dir s fs res with
    | error e => rw [hst] at h; cases h
    | ok p =>
      rw [hst] at h
      obtain ⟨hf1, hshape⟩ := syncStep_res hst
      obtain ⟨hf2, lc, ls, hc2, hs2, hmem⟩ := ih h
      refine ⟨hf2.trans hf1, ?_⟩
      rcases hshape with ⟨r, hsk, hcr⟩ | ⟨hcr, hsk⟩
      · refine ⟨lc, pairEntryR root a dir s (some r) :: ls, ?_, ?_, ?_⟩
        · rw [hc2, hcr]
        · rw [hs2, hsk]
          simp
        · intro e he
          rcases List.mem_append.mp he with he1 | he1
          · obtain ⟨x, hx, r', he'⟩ := hmem e (List.mem_append.mpr (Or.inl he1))
            exact ⟨x, List.mem_cons_of_mem _ hx, r', he'⟩
          · rcases List.mem_cons.mp he1 with rfl | he2
            · exact ⟨s, List.mem_cons_self _ _, some r, rfl⟩
            · obtain ⟨x, hx, r', he'⟩ := hmem e (List.mem_append.mpr (Or.inr he2))
              exact ⟨x, List.mem_cons_of_mem _ hx, r', he'⟩
      · refine ⟨pairEntryR root a dir s none :: lc, ls, ?_, ?_, ?_⟩
        · rw [hc2, hcr]
          simp
        · rw [hs2, hsk]
        · intro e he
          rcases List.mem_append.mp he with he1 | he1
          · rcases List.mem_cons.mp he1 with rfl | he2
            · exact ⟨s, List.mem_cons_self _ _, none, rfl⟩
            · obtain ⟨x, hx, r', he'⟩ := hmem e (List.mem_append.mpr (Or.inl he2))
              exact ⟨x, List.mem_cons_of_mem _ hx, r', he'⟩
          · obtain ⟨x, hx, r', he'⟩ := hmem e (List.mem_append.mpr (Or.inr he1))
            exact ⟨x, List.mem_cons_of_mem _ hx, r', he'⟩

theorem syncSkillsLoop_created_excl {root : FPath} {dry : Bool} {a : String} {dir : FPath}
    {q : FPath} {n : Node} :
    ∀ {skills : List String} {fs fs' : FSys} {res res' : SyncResult},
      syncSkillsLoop root dry a dir skills fs res = .ok (fs', res') →
      findEntry fs.entries q = some n → n.isLink = false → q ∉ fs.denied →
      ∀ e ∈ res'.created, e ∈ res.created ∨ e.target ≠ q := by
  intro skills
  induction skills with
  | nil =>
    intro fs fs' res res' h _ _ _ e he
    cases h
    exact Or.inl he
  | cons s rest ih =>
    intro fs fs' res res' h hfe hnl hden e he
    unfold syncSkillsLoop at h
    cases hst : syncStep root dry a dir s fs res with
    | error er => rw [hst] at h; cases h
    | ok p =>
      rw [hst] at h
      have hfe1 := syncStep_preserves_nonlink hst hfe hnl
      have hden1 : q ∉ p.1.denied := by
        rw [(syncStep_denied_ro hst).1]
        exact hden
      rcases ih h hfe1 hnl hden1 e he with h1 | h1
      · rcases syncStep_created_excl hst hfe hnl hden with hc | ⟨hc, hne⟩
        · rw [hc] at h1
          exact Or.inl h1
        · rw [hc] at h1
          rcases List.mem_append.mp h1 with h2 | h2
          · exact Or.inl h2
          · rcases List.mem_singleton.mp h2 with rfl
            exact Or.inr (by
              show joinP dir [s] ≠ q
              exact hne)
      · exact Or.inr h1

theorem isPrefix_of_isPrefix_snoc {t dir : FPath} {s : String}
    (h : t <+: dir ++ [s]) (hlen : t.length ≤ dir.length) : t <+: dir := by
  have h1 : t = (dir ++ [s]).take t.length := by
    obtain ⟨u, hu⟩ := h
    rw [← hu]
    simp
  rw [List.take_append_of_le_length hlen] at h1
  rw [h1]
  exact List.take_prefix _ _

theorem syncSkillsLoop_subtree {root : FPath} {dry : Bool} {a : String} {dir : FPath}
    {t : FPath} (hdir : cleanPath dir) (hno : ¬ t <+: dir) :
    ∀ {skills : List String} {fs fs' : FSys} {res res' : SyncResult},
      (∀ s ∈ skills, cleanComp s) →
      syncSkillsLoop root dry a dir skills fs res = .ok (fs', res') →
      ∀ q, t <+: q → t ≠ q → findEntry fs'.entries q = findEntry fs.entries q := by
  intro skills
  induction skills with
  | nil =>
    intro fs fs' res res' _ h q _ _
    cases h
    rfl
  | cons s rest ih =>
    intro fs fs' res res' hcl h q hpre hne
    unfold syncSkillsLoop at h
    cases hst : syncStep root dry a dir s fs res with
    | error er => rw [hst] at h; cases h
    | ok p =>
      rw [hst] at h
      rw [ih (fun x hx => hcl x (List.mem_cons_of_mem _ hx)) h q hpre hne]
      rcases syncStep_frame hdir (hcl s (List.mem_cons_self _ _)) hst q with h1 | h1 | h1
      · exact h1
      · exfalso
        apply hno
        have hlen : t.length ≤ dir.length := by
          have h2 : t.length ≤ q.length := hpre.length_le
          have h3 : t.length ≠ q.length := by
            intro hEq
            exact hne (List.IsPrefix.eq_of_length hpre hEq)
          rw [h1] at h2 h3
          simp at h2 h3
          omega
        exact isPrefix_of_isPrefix_snoc (h1 ▸ hpre) hlen
      · exfalso
        apply hno
        have hlen : t.length ≤ dir.length := le_trans hpre.length_le h1.length_le
        exact hpre.trans h1

theorem syncSkillsLoop_canon {c : FPath} {root : FPath} {dry : Bool} {a : String} {dir : FPath}
    {allSkills : List String} (hdir : cleanPath dir)
    (hnn : ¬ (c.length < dir.length ∧ c <+: dir)) :
    ∀ {skills : List String} {fs fs' : FSys} {res res' : SyncResult},
      (∀ s ∈ skills, cleanComp s) → (∀ s ∈ skills, s ∈ allSkills) →
      (∀ x ∈ allSkills, findEntry fs.entries (c ++ [x]) = some Node.dir) →
      syncSkillsLoop root dry a dir skills fs res = .ok (fs', res') →
      childEntries fs'.entries c = childEntries fs.entries c ∧
        (∀ x ∈ allSkills, findEntry fs'.entries (c ++ [x]) = some Node.dir) := by
  intro skills
  induction skills with
  | nil =>
    intro fs fs' res res' _ _ hall h
    cases h
    exact ⟨rfl, hall⟩
  | cons s rest ih =>
    intro fs fs' res res' hcl hsub hall h
    unfold syncSkillsLoop at h
    cases hst : syncStep root dry a dir s fs res with
    | error er => rw [hst] at h; cases h
    | ok p =>
      rw [hst] at h
      have hstep := syncStep_canon hdir (hcl s (List.mem_cons_self _ _)) hnn
        (fun _ => hall s (hsub s (List.mem_cons_self _ _))) hst
      have hall1 : ∀ x ∈ allSkills, findEntry p.1.entries (c ++ [x]) = some Node.dir :=
        fun x hx => syncStep_preserves_nonlink hst (hall x hx) rfl
      obtain ⟨h1, h2⟩ := ih (fun x hx => hcl x (List.mem_cons_of_mem _ hx))
        (fun x hx => hsub x (List.mem_cons_of_mem _ hx)) hall1 h
      exact ⟨h1.trans hstep, h2⟩

theorem syncSkillsLoop_on_linked {root : FPath} {dry : Bool} {a : String} {dir : FPath} :
    ∀ {skills : List String} {fs : FSys} {res : SyncResult},
      fs.denied = [] →
      (∀ s ∈ skills, ∃ n, goodAt fs root dir s n) →
      ∃ l, syncSkillsLoop root dry a dir skills fs res =
          .ok (fs, { res with skipped := res.skipped ++ l }) ∧
        (∀ e ∈ l, ∃ s ∈ skills, (e = pairEntryR root a dir s (some "already linked") ∨
          e = pairEntryR root a dir s (some "real directory exists, skipping"))) ∧
        (∀ s ∈ skills, ∃ e ∈ l, e.skill = s ∧ e.agent = a) := by
  intro skills
  induction skills with
  | nil =>
    intro fs res _ _
    refine ⟨[], ?_, ?_, ?_⟩
    · show Except.ok (fs, res) = _
      simp
    · intro e he; cases he
    · intro s hs; cases hs
  | cons s rest ih =>
    intro fs res hden hl
    obtain ⟨n, hn⟩ := hl s (List.mem_cons_self _ _)
    have hstep := @syncStep_on_linked root dry a dir s fs res n
      (by rw [hden]; exact List.not_mem_nil _) hn
    obtain ⟨l, hloop, hmem, hcov⟩ := @ih fs
      { res with skipped := res.skipped ++ [pairEntryR root a dir s
        (if n.isLink then some "already linked" else some "real directory exists, skipping")] }
      hden (fun x hx => hl x (List.mem_cons_of_mem _ hx))
    refine ⟨pairEntryR root a dir s
        (if n.isLink then some "already linked" else some "real directory exists, skipping") :: l,
      ?_, ?_, ?_⟩
    · unfold syncSkillsLoop
      rw [hstep]
      show syncSkillsLoop root dry a dir rest fs _ = _
      rw [hloop]
      simp [List.append_assoc]
    · intro e he
      rcases List.mem_cons.mp he with rfl | he'
      · refine ⟨s, List.mem_cons_self _ _, ?_⟩
        cases n.isLink
        · exact Or.inr (by rw [if_neg (by simp)])
        · exact Or.inl (by rw [if_pos rfl])
      · obtain ⟨x, hx, hor⟩ := hmem e he'
        exact ⟨x, List.mem_cons_of_mem _ hx, hor⟩
    · intro x hx
      rcases List.mem_cons.mp hx with rfl | hx'
      · exact ⟨_, List.mem_cons_self _ _, rfl, rfl⟩
      · obtain ⟨e, he, h1, h2⟩ := hcov x hx'
        exact ⟨e, List.mem_cons_of_mem _ he, h1, h2⟩

theorem syncStep_dry_total (root : FPath) (a : String) (dir : FPath) (s : String)
    (fs : FSys) (res : SyncResult) :
    ∃ res', syncStep root true a dir s fs res = .ok (fs, res') := by
  unfold syncStep
  by_cases hsl : isSymlink fs (joinP dir [s]) = true
  · simp only [hsl, Bool.or_true, if_true]
    by_cases heq : readlinkD fs (joinP dir [s]) = relativeP dir (joinP root (CANONICAL_SOURCE ++ [s]))
    · rw [if_pos heq]
      exact ⟨_, rfl⟩
    · rw [if_neg heq, syncCreate_dry]
      exact ⟨_, rfl⟩
  · have hslf : isSymlink fs (joinP dir [s]) = false := by
      revert hsl; cases isSymlink fs (joinP dir [s]) <;> simp
    by_cases hex : existsSync fs (joinP dir [s]) = true
    · simp only [hslf, hex, Bool.true_or, if_true, Bool.false_eq_true, if_false]
      exact ⟨_, rfl⟩
    · have hexf : existsSync fs (joinP dir [s]) = false := by
        revert hex; cases existsSync fs (joinP dir [s]) <;> simp
      simp only [hslf, hexf, Bool.or_false, Bool.false_eq_true, if_false, syncCreate_dry]
      exact ⟨_, rfl⟩

theorem syncSkillsLoop_dry_total (root : FPath) (a : String) (dir : FPath) :
    ∀ (skills : List String) (fs : FSys) (res : SyncResult),
      ∃ res', syncSkillsLoop root true a dir skills fs res = .ok (fs, res') := by
  intro skills
  induction skills with
  | nil =>
    intro fs res
    exact ⟨res, rfl⟩
  | cons s rest ih =>
    intro fs res
    obtain ⟨res1, hst⟩ := syncStep_dry_total root a dir s fs res
    obtain ⟨res2, hloop⟩ := ih fs res1
    refine ⟨res2, ?_⟩
    unfold syncSkillsLoop
    rw [hst]
    exact hloop

/-! ### Reconciliation engine: outer-loop lemmas -/

theorem syncAgentsLoop_denied_ro {root : FPath} {dry : Bool} {skills : List String} :
    ∀ {agents : List (String × FPath)} {fs fs' : FSys} {res res' : SyncResult},
      syncAgentsLoop root dry skills agents fs res = .ok (fs', res') →
      fs'.denied = fs.denied ∧ fs'.roDirs = fs.roDirs := by
  intro agents
  induction agents with
  | nil =>
    intro fs fs' res res' h
    cases h
    exact ⟨rfl, rfl⟩
  | cons ag rest ih =>
    intro fs fs' res res' h
    unfold syncAgentsLoop at h
    cases hst : syncSkillsLoop root dry ag.1 (joinP root ag.2) skills fs res with
    | error e => rw [hst] at h; cases h
    | ok p =>
      rw [hst] at h
      obtain ⟨h1, h2⟩ := syncSkillsLoop_denied_ro hst
      obtain ⟨h3, h4⟩ := ih h
      exact ⟨h3.trans h1, h4.trans h2⟩

theorem syncAgentsLoop_preserves_nonlink {root : FPath} {dry : Bool} {skills : List String} :
    ∀ {agents : List (String × FPath)} {fs fs' : FSys} {res res' : SyncResult} {q : FPath}
      {n : Node},
      syncAgentsLoop root dry skills agents fs res = .ok (fs', res') →
      findEntry fs.entries q = some n → n.isLink = false →
      findEntry fs'.entries q = some n := by
  intro agents
  induction agents with
  | nil =>
    intro fs fs' res res' q n h hfe _
    cases h
    exact hfe
  | cons ag rest ih =>
    intro fs fs' res res' q n h hfe hnl
    unfold syncAgentsLoop at h
    cases hst : syncSkillsLoop root dry ag.1 (joinP root ag.2) skills fs res with
    | error e => rw [hst] at h; cases h
    | ok p =>
      rw [hst] at h
      exact ih h (syncSkillsLoop_preserves_nonlink hst hfe hnl) hnl

theorem syncAgentsLoop_preserves_good {root : FPath} {dry : Bool} {skills : List String}
    {dir0 : FPath} {s0 : String} {n0 : Node} (hdir0 : cleanPath dir0) (hs0 : cleanComp s0)
    (hcl : ∀ s ∈ skills, cleanComp s) :
    ∀ {agents : List (String × FPath)} {fs fs' : FSys} {res res' : SyncResult},
      syncAgentsLoop root dry skills agents fs res = .ok (fs', res') →
      goodAt fs root dir0 s0 n0 → goodAt fs' root dir0 s0 n0 := by
  intro agents
  induction agents with
  | nil =>
    intro fs fs' res res' h hg
    cases h
    exact hg
  | cons ag rest ih =>
    intro fs fs' res res' h hg
    unfold syncAgentsLoop at h
    cases hst : syncSkillsLoop root dry ag.1 (joinP root ag.2) skills fs res with
    | error e => rw [hst] at h; cases h
    | ok p =>
      rw [hst] at h
      exact ih h (syncSkillsLoop_preserves_good (cleanPath_joinP root ag.2) hdir0 hs0 hcl hst hg)

theorem syncAgentsLoop_establishes {root : FPath} {skills : List String}
    (hcl : ∀ s ∈ skills, cleanComp s) :
    ∀ {agents : List (String × FPath)} {fs fs' : FSys} {res res' : SyncResult},
      syncAgentsLoop root false skills agents fs res = .ok (fs', res') →
      ∀ ag ∈ agents, ∀ s ∈ skills, ∃ n, goodAt fs' root (joinP root ag.2) s n := by
  intro agents
  induction agents with
  | nil =>
    intro fs fs' res res' _ ag hag
    cases hag
  | cons ag0 rest ih =>
    intro fs fs' res res' h ag hag s hs
    unfold syncAgentsLoop at h
    cases hst : syncSkillsLoop root false ag0.1 (joinP root ag0.2) skills fs res with
    | error e => rw [hst] at h; cases h
    | ok p =>
      rw [hst] at h
      rcases List.mem_cons.mp hag with rfl | hag'
      · obtain ⟨n, hn⟩ := syncSkillsLoop_establishes (cleanPath_joinP root ag.2) hcl hst s hs
        exact ⟨n, syncAgentsLoop_preserves_good (cleanPath_joinP root ag.2)
          (hcl s hs) hcl h hn⟩
      · exact ih h ag hag' s hs

theorem syncAgentsLoop_res {root : FPath} {dry : Bool} {skills : List String} :
    ∀ {agents : List (String × FPath)} {fs fs' : FSys} {res res' : SyncResult},
      syncAgentsLoop root dry skills agents fs res = .ok (fs', res') →
      res'.failed = res.failed ∧
        ∃ lc ls, res'.created = res.created ++ lc ∧ res'.skipped = res.skipped ++ ls ∧
          ∀ e ∈ lc ++ ls, ∃ ag ∈ agents, ∃ s ∈ skills, ∃ r,
            e = pairEntryR root ag.1 (joinP root ag.2) s r := by
  intro agents
  induction agents with
  | nil =>
    intro fs fs' res res' h
    cases h
    exact ⟨rfl, [], [], by simp, by simp, by simp⟩
  | cons ag rest ih =>
    intro fs fs' res res' h
    unfold syncAgentsLoop at h
    cases hst : syncSkillsLoop root dry ag.1 (joinP root ag.2) skills fs res with
    | error e => rw [hst] at h; cases h
    | ok p =>
      rw [hst] at h
      obtain ⟨hf1, lc1, ls1, hc1, hs1, hmem1⟩ := syncSkillsLoop_res hst
      obtain ⟨hf2, lc2, ls2, hc2, hs2, hmem2⟩ := ih h
      refine ⟨hf2.trans hf1, lc1 ++ lc2, ls1 ++ ls2, ?_, ?_, ?_⟩
      · rw [hc2, hc1, List.append_assoc]
      · rw [hs2, hs1, List.append_assoc]
      · intro e he
        have : e ∈ lc1 ++ ls1 ∨ e ∈ lc2 ++ ls2 := by
          rcases List.mem_append.mp he with h' | h'
          · rcases List.mem_append.mp h' with h'' | h''
            · exact Or.inl (List.mem_append.mpr (Or.inl h''))
            · exact Or.inr (List.mem_append.mpr (Or.inl h''))
          · rcases List.mem_append.mp h' with h'' | h''
            · exact Or.inl (List.mem_append.mpr (Or.inr h''))
            · exact Or.inr (List.mem_append.mpr (Or.inr h''))
        rcases this with h' | h'
        · obtain ⟨s, hs, r, he'⟩ := hmem1 e h'
          exact ⟨ag, List.mem_cons_self _ _, s, hs, r, he'⟩
        · obtain ⟨ag', hag', s, hs, r, he'⟩ := hmem2 e h'
          exact ⟨ag', List.mem_cons_of_mem _ hag', s, hs, r, he'⟩

theorem syncAgentsLoop_created_excl {root : FPath} {dry : Bool} {skills : List String}
    {q : FPath} {n : Node} :
    ∀ {agents : List (String × FPath)} {fs fs' : FSys} {res res' : SyncResult},
      syncAgentsLoop root dry skills agents fs res = .ok (fs', res') →
      findEntry fs.entries q = some n → n.isLink = false → q ∉ fs.denied →
      ∀ e ∈ res'.created, e ∈ res.created ∨ e.target ≠ q := by
  intro agents
  induction agents with
  | nil =>
    intro fs fs' res res' h _ _ _ e he
    cases h
    exact Or.inl he
  | cons ag rest ih =>
    intro fs fs' res res' h hfe hnl hden e he
    unfold syncAgentsLoop at h
    cases hst : syncSkillsLoop root dry ag.1 (joinP root ag.2) skills fs res with
    | error er => rw [hst] at h; cases h
    | ok p =>
      rw [hst] at h
      have hfe1 := syncSkillsLoop_preserves_nonlink hst hfe hnl
      have hden1 : q ∉ p.1.denied := by
        rw [(syncSkillsLoop_denied_ro hst).1]
        exact hden
      rcases ih h hfe1 hnl hden1 e he with h1 | h1
      · exact syncSkillsLoop_created_excl hst hfe hnl hden e h1
      · exact Or.inr h1

theorem syncAgentsLoop_subtree {root : FPath} {dry : Bool} {skills : List String}
    {t : FPath} (hcl : ∀ s ∈ skills, cleanComp s) :
    ∀ {agents : List (String × FPath)} {fs fs' : FSys} {res res' : SyncResult},
      (∀ ag ∈ agents, ¬ t <+: joinP root ag.2) →
      syncAgentsLoop root dry skills agents fs res = .ok (fs', res') →
      ∀ q, t <+: q → t ≠ q → findEntry fs'.entries q = findEntry fs.entries q := by
  intro agents
  induction agents with
  | nil =>
    intro fs fs' res res' _ h q _ _
    cases h
    rfl
  | cons ag rest ih =>
    intro fs fs' res res' hno h q hpre hne
    unfold syncAgentsLoop at h
    cases hst : syncSkillsLoop root dry ag.1 (joinP root ag.2) skills fs res with
    | error er => rw [hst] at h; cases h
    | ok p =>
      rw [hst] at h
      rw [ih (fun x hx => hno x (List.mem_cons_of_mem _ hx)) h q hpre hne]
      exact syncSkillsLoop_subtree (cleanPath_joinP root ag.2)
        (hno ag (List.mem_cons_self _ _)) hcl hst q hpre hne

theorem syncAgentsLoop_canon {c : FPath} {root : FPath} {dry : Bool} {skills : List String}
    (hcl : ∀ s ∈ skills, cleanComp s) :
    ∀ {agents : List (String × FPath)} {fs fs' : FSys} {res res' : SyncResult},
      (∀ ag ∈ agents, ¬ (c.length < (joinP root ag.2).length ∧ c <+: joinP root ag.2)) →
      (∀ x ∈ skills, findEntry fs.entries (c ++ [x]) = some Node.dir) →
      syncAgentsLoop root dry skills agents fs res = .ok (fs', res') →
      childEntries fs'.entries c = childEntries fs.entries c ∧
        (∀ x ∈ skills, findEntry fs'.entries (c ++ [x]) = some Node.dir) := by
  intro agents
  induction agents with
  | nil =>
    intro fs fs' res res' _ hall h
    cases h
    exact ⟨rfl, hall⟩
  | cons ag rest ih =>
    intro fs fs' res res' hnn hall h
    unfold syncAgentsLoop at h
    cases hst : syncSkillsLoop root dry ag.1 (joinP root ag.2) skills fs res with
    | error er => rw [hst] at h; cases h
    | ok p =>
      rw [hst] at h
      obtain ⟨h1, h2⟩ := syncSkillsLoop_canon (cleanPath_joinP root ag.2)
        (hnn ag (List.mem_cons_self _ _)) hcl (fun x hx => hx) hall hst
      obtain ⟨h3, h4⟩ := ih (fun x hx => hnn x (List.mem_cons_of_mem _ hx)) h2 h
      exact ⟨h3.trans h1, h4⟩

theorem syncAgentsLoop_on_linked {root : FPath} {dry : Bool} {skills : List String} :
    ∀ {agents : List (String × FPath)} {fs : FSys} {res : SyncResult},
      fs.denied = [] →
      (∀ ag ∈ agents, ∀ s ∈ skills, ∃ n, goodAt fs root (joinP root ag.2) s n) →
      ∃ l, syncAgentsLoop root dry skills agents fs res =
          .ok (fs, { res with skipped := res.skipped ++ l }) ∧
        (∀ e ∈ l, ∃ ag ∈ agents, ∃ s ∈ skills,
          (e = pairEntryR root ag.1 (joinP root ag.2) s (some "already linked") ∨
            e = pairEntryR root ag.1 (joinP root ag.2) s
              (some "real directory exists, skipping"))) ∧
        (∀ ag ∈ agents, ∀ s ∈ skills, ∃ e ∈ l, e.skill = s ∧ e.agent = ag.1) := by
  intro agents
  induction agents with
  | nil =>
    intro fs res _ _
    refine ⟨[], ?_, ?_, ?_⟩
    · show Except.ok (fs, res) = _
      simp
    · intro e he; cases he
    · intro ag hag; cases hag
  | cons ag rest ih =>
    intro fs res hden hl
    obtain ⟨l1, hloop1, hmem1, hcov1⟩ := @syncSkillsLoop_on_linked root dry ag.1
      (joinP root ag.2) skills fs res hden (hl ag (List.mem_cons_self _ _))
    obtain ⟨l2, hloop2, hmem2, hcov2⟩ := @ih fs
      { res with skipped := res.skipped ++ l1 }
      hden (fun x hx => hl x (List.mem_cons_of_mem _ hx))
    refine ⟨l1 ++ l2, ?_, ?_, ?_⟩
    · unfold syncAgentsLoop
      rw [hloop1]
      show syncAgentsLoop root dry skills rest fs _ = _
      rw [hloop2]
      simp [List.append_assoc]
    · intro e he
      rcases List.mem_append.mp he with he' | he'
      · obtain ⟨s, hs, hor⟩ := hmem1 e he'
        exact ⟨ag, List.mem_cons_self _ _, s, hs, hor⟩
      · obtain ⟨ag', hag', s, hs, hor⟩ := hmem2 e he'
        exact ⟨ag', List.mem_cons_of_mem _ hag', s, hs, hor⟩
    · intro ag' hag' s hs
      rcases List.mem_cons.mp hag' with rfl | hag''
      · obtain ⟨e, he, h1, h2⟩ := hcov1 s hs
        exact ⟨e, List.mem_append.mpr (Or.inl he), h1, h2⟩
      · obtain ⟨e, he, h1, h2⟩ := hcov2 ag' hag'' s hs
        exact ⟨e, List.mem_append.mpr (Or.inr he), h1, h2⟩

theorem syncAgentsLoop_dry_total (root : FPath) (skills : List String) :
    ∀ (agents : List (String × FPath)) (fs : FSys) (res : SyncResult),
      ∃ res', syncAgentsLoop root true skills agents fs res = .ok (fs, res') := by
  intro agents
  induction agents with
  | nil =>
    intro fs res
    exact ⟨res, rfl⟩
  | cons ag rest ih =>
    intro fs res
    obtain ⟨res1, hst⟩ := syncSkillsLoop_dry_total root ag.1 (joinP root ag.2) skills fs res
    obtain ⟨res2, hloop⟩ := ih fs res1
    refine ⟨res2, ?_⟩
    unfold syncAgentsLoop
    rw [hst]
    exact hloop

/-! ### Discovery lemmas -/

theorem Node.isDir_iff {n : Node} : n.isDir = true ↔ n = Node.dir := by
  cases n <;> simp [Node.isDir]

theorem mem_childEntries_iff {es : List (FPath × Node)} {p : FPath} {s : String} {n : Node} :
    (s, n) ∈ childEntries es p ↔ (p ++ [s], n) ∈ es := by
  unfold childEntries
  rw [List.mem_filterMap]
  constructor
  · rintro ⟨⟨q, m⟩, hmem, hmap⟩
    cases hcn : childName p q with
    | none => rw [hcn] at hmap; cases hmap
    | some x =>
      rw [hcn] at hmap
      simp only [Option.map_some, Option.some.injEq, Prod.mk.injEq] at hmap
      obtain ⟨rfl, rfl⟩ := hmap
      rw [childName_eq_some_iff.mp hcn] at hmem
      exact hmem
  · intro hmem
    exact ⟨(p ++ [s], n), hmem, by rw [childName_append]; rfl⟩

theorem discoverSkills_ok_of_existsSync {fs : FSys} {root : FPath}
    (hex : existsSync fs (joinP root CANONICAL_SOURCE) = true) :
    discoverSkills fs root = .ok
      (((childEntries fs.entries (joinP root CANONICAL_SOURCE)).filter
        (fun e => e.2.isDir)).map (fun e => e.1)) := by
  unfold discoverSkills
  rw [if_pos hex]

theorem discoverSkills_error_of_missing {fs : FSys} {root : FPath}
    (hex : existsSync fs (joinP root CANONICAL_SOURCE) = false) :
    discoverSkills fs root = .error (".agents/skills does not exist in " ++ renderP root) := by
  unfold discoverSkills
  rw [if_neg (by rw [hex]; exact Bool.false_ne_true)]

theorem discoverSkills_mem_iff {fs : FSys} {root : FPath} {skills : List String}
    (h : discoverSkills fs root = .ok skills) {s : String} :
    s ∈ skills ↔ (joinP root CANONICAL_SOURCE ++ [s], Node.dir) ∈ fs.entries := by
  unfold discoverSkills at h
  by_cases hex : existsSync fs (joinP root CANONICAL_SOURCE) = true
  · rw [if_pos hex] at h
    cases h
    rw [List.mem_map]
    constructor
    · rintro ⟨⟨x, n⟩, hmem, rfl⟩
      obtain ⟨hce, hdir⟩ := List.mem_filter.mp hmem
      have hd : n = Node.dir := Node.isDir_iff.mp hdir
      subst hd
      exact mem_childEntries_iff.mp hce
    · intro hmem
      exact ⟨(s, Node.dir), List.mem_filter.mpr ⟨mem_childEntries_iff.mpr hmem, rfl⟩, rfl⟩
  · rw [if_neg hex] at h
    cases h

theorem discoverSkills_clean {fs : FSys} {root : FPath} {skills : List String}
    (hwf : ∀ e ∈ fs.entries, cleanPath e.1) (h : discoverSkills fs root = .ok skills) :
    ∀ s ∈ skills, cleanComp s := by
  intro s hs
  have hmem := (discoverSkills_mem_iff h).mp hs
  have hcp := hwf _ hmem
  exact hcp s (by simp)

theorem discoverSkills_findEntry {fs : FSys} {root : FPath} {skills : List String}
    (hnd : (fs.entries.map Prod.fst).Nodup) (h : discoverSkills fs root = .ok skills) :
    ∀ s ∈ skills, findEntry fs.entries (joinP root CANONICAL_SOURCE ++ [s]) = some Node.dir :=
  fun _ hs => findEntry_of_mem_nodup ((discoverSkills_mem_iff h).mp hs) hnd

/-! ### Whole-run lemmas for syncSkills -/

theorem syncSkills_ok_elim {fs : FSys} {root : FPath} {opts : SyncOptions} {fs1 : FSys}
    {r1 : SyncResult} (h : syncSkills fs root opts = .ok (fs1, r1)) :
    ∃ skills, discoverSkills fs root = .ok skills ∧
      syncAgentsLoop root opts.dryRun skills (targetAgents opts) fs ⟨[], [], []⟩ =
        .ok (fs1, r1) := by
  unfold syncSkills at h
  cases hd : discoverSkills fs root with
  | error e => rw [hd] at h; cases h
  | ok skills =>
    rw [hd] at h
    exact ⟨skills, rfl, h⟩

theorem syncSkills_run_facts {fs : FSys} {root : FPath} {opts : SyncOptions} {fs1 : FSys}
    {r1 : SyncResult}
    (hwf : ∀ e ∈ fs.entries, cleanPath e.1)
    (hden : fs.denied = [])
    (hcanon : findEntry fs.entries (joinP root CANONICAL_SOURCE) = some Node.dir)
    (hdry : opts.dryRun = false)
    (hrun : syncSkills fs root opts = .ok (fs1, r1)) :
    ∃ skills, discoverSkills fs root = .ok skills ∧
      (∀ s ∈ skills, cleanComp s) ∧
      fs1.denied = [] ∧
      findEntry fs1.entries (joinP root CANONICAL_SOURCE) = some Node.dir ∧
      (∀ ag ∈ targetAgents opts, ∀ s ∈ skills, ∃ n, goodAt fs1 root (joinP root ag.2) s n) := by
  obtain ⟨skills, hdisc, hloop⟩ := syncSkills_ok_elim hrun
  rw [hdry] at hloop
  have hcl := discoverSkills_clean hwf hdisc
  refine ⟨skills, hdisc, hcl, ?_, ?_, ?_⟩
  · rw [(syncAgentsLoop_denied_ro hloop).1, hden]
  · exact syncAgentsLoop_preserves_nonlink hloop hcanon rfl
  · exact syncAgentsLoop_establishes hcl hloop

theorem syncSkills_discover_stable {fs : FSys} {root : FPath} {opts : SyncOptions} {fs1 : FSys}
    {r1 : SyncResult} {skills : List String}
    (hnd : (fs.entries.map Prod.fst).Nodup)
    (hden : fs.denied = [])
    (hcanon : findEntry fs.entries (joinP root CANONICAL_SOURCE) = some Node.dir)
    (hnest : ∀ ag ∈ targetAgents opts,
      ¬ ((joinP root CANONICAL_SOURCE).length < (joinP root ag.2).length ∧
        joinP root CANONICAL_SOURCE <+: joinP root ag.2))
    (hdisc : discoverSkills fs root = .ok skills)
    (hcl : ∀ s ∈ skills, cleanComp s)
    (hrun : syncSkills fs root opts = .ok (fs1, r1)) :
    discoverSkills fs1 root = .ok skills := by
  obtain ⟨skills0, hdisc0, hloop⟩ := syncSkills_ok_elim hrun
  rw [hdisc0] at hdisc
  cases hdisc
  have hfinds := discoverSkills_findEntry hnd hdisc0
  obtain ⟨hchild, _⟩ := syncAgentsLoop_canon hcl hnest hfinds hloop
  have hcanon1 : findEntry fs1.entries (joinP root CANONICAL_SOURCE) = some Node.dir :=
    syncAgentsLoop_preserves_nonlink hloop hcanon rfl
  have hden1 : fs1.denied = [] := by
    rw [(syncAgentsLoop_denied_ro hloop).1, hden]
  have hex1 : existsSync fs1 (joinP root CANONICAL_SOURCE) = true :=
    existsSync_of_nonlink (by rw [hden1]; exact List.not_mem_nil _) hcanon1 rfl
  have hex0 : existsSync fs (joinP root CANONICAL_SOURCE) = true :=
    existsSync_of_nonlink (by rw [hden]; exact List.not_mem_nil _) hcanon rfl
  rw [discoverSkills_ok_of_existsSync hex1, hchild]
  rw [discoverSkills_ok_of_existsSync hex0] at hdisc0
  cases hdisc0
  rfl

/-! ### Claim C1 -/

/-- C1 (amended): for a well-formed filesystem (clean, uniquely-keyed
paths, no read-denied paths) whose canonical source root is a real
directory, if a first non-preview `syncSkills` run succeeds and no
selected agent's skills directory lies strictly inside the canonical
source root, then a second run on the resulting state succeeds,
mutates nothing, reports zero `created` and zero `failed` outcomes,
covers every (skill, agent) pair in `skipped`, and each skipped pair
carries reason "already linked" — except pairs whose link path holds
a real (non-symlink) entry, which carry reason "real directory
exists, skipping". -/
theorem claim1_second_sync_all_skipped
    {fs : FSys} {root : FPath} {opts : SyncOptions} {fs1 : FSys} {r1 : SyncResult}
    (hwf : ∀ e ∈ fs.entries, cleanPath e.1)
    (hnd : (fs.entries.map Prod.fst).Nodup)
    (hden : fs.denied = [])
    (hcanon : findEntry fs.entries (joinP root CANONICAL_SOURCE) = some Node.dir)
    (hnest : ∀ ag ∈ targetAgents opts,
      ¬ ((joinP root CANONICAL_SOURCE).length < (joinP root ag.2).length ∧
        joinP root CANONICAL_SOURCE <+: joinP root ag.2))
    (hdry : opts.dryRun = false)
    (hrun : syncSkills fs root opts = .ok (fs1, r1)) :
    ∃ skills r2, discoverSkills fs root = .ok skills ∧
      syncSkills fs1 root opts = .ok (fs1, r2) ∧
      r2.created = [] ∧ r2.failed = [] ∧
      (∀ e ∈ r2.skipped, e.reason = some "already linked" ∨
        e.reason = some "real directory exists, skipping") ∧
      (∀ ag ∈ targetAgents opts, ∀ s ∈ skills,
        ∃ e ∈ r2.skipped, e.skill = s ∧ e.agent = ag.1) := by
  obtain ⟨skills, hdisc, hcl, hden1, hcanon1, hgood⟩ :=
    syncSkills_run_facts hwf hden hcanon hdry hrun
  have hstable := syncSkills_discover_stable hnd hden hcanon hnest hdisc hcl hrun
  obtain ⟨l, hloop2, hmem, hcov⟩ := @syncAgentsLoop_on_linked root opts.dryRun skills
    (targetAgents opts) fs1 ⟨[], [], []⟩ hden1 hgood
  refine ⟨skills, { created := [], skipped := [] ++ l, failed := [] }, hdisc, ?_, rfl, rfl, ?_, ?_⟩
  · unfold syncSkills
    rw [hstable]
    exact hloop2
  · intro e he
    rw [List.nil_append] at he
    obtain ⟨ag, _, s, _, hor⟩ := hmem e he
    rcases hor with rfl | rfl
    · exact Or.inl rfl
    · exact Or.inr rfl
  · intro ag hag s hs
    obtain ⟨e, he, h1, h2⟩ := hcov ag hag s hs
    exact ⟨e, by rw [List.nil_append]; exact he, h1, h2⟩

/-- C1 witness: concrete instantiation of `claim1_second_sync_all_skipped`
on a one-skill, one-agent project. -/
theorem claim1_second_sync_all_skipped_witness :
    ∃ skills r2,
      discoverSkills
        { entries := [ (["r", ".agents"], Node.dir),
                       (["r", ".agents", "skills"], Node.dir),
                       (["r", ".agents", "skills", "a"], Node.dir) ] } ["r"] = .ok skills ∧
      syncSkills
        { entries := [ (["r", ".claude", "skills", "a"],
                         Node.symlink ["..", "..", ".agents", "skills", "a"]),
                       (["r", ".claude", "skills"], Node.dir),
                       (["r", ".claude"], Node.dir),
                       (["r"], Node.dir),
                       (["r", ".agents"], Node.dir),
                       (["r", ".agents", "skills"], Node.dir),
                       (["r", ".agents", "skills", "a"], Node.dir) ] } ["r"]
        { agents := [("claude-code", [".claude", "skills"])] } =
        .ok ({ entries := [ (["r", ".claude", "skills", "a"],
                         Node.symlink ["..", "..", ".agents", "skills", "a"]),
                       (["r", ".claude", "skills"], Node.dir),
                       (["r", ".claude"], Node.dir),
                       (["r"], Node.dir),
                       (["r", ".agents"], Node.dir),
                       (["r", ".agents", "skills"], Node.dir),
                       (["r", ".agents", "skills", "a"], Node.dir) ] }, r2) ∧
      r2.created = [] ∧ r2.failed = [] ∧
      (∀ e ∈ r2.skipped, e.reason = some "already linked" ∨
        e.reason = some "real directory exists, skipping") ∧
      (∀ ag ∈ targetAgents { agents := [("claude-code", [".claude", "skills"])] },
        ∀ s ∈ skills, ∃ e ∈ r2.skipped, e.skill = s ∧ e.agent = ag.1) :=
  @claim1_second_sync_all_skipped
    { entries := [ (["r", ".agents"], Node.dir),
                   (["r", ".agents", "skills"], Node.dir),
                   (["r", ".agents", "skills", "a"], Node.dir) ] }
    ["r"]
    { agents := [("claude-code", [".claude", "skills"])] }
    { entries := [ (["r", ".claude", "skills", "a"],
                     Node.symlink ["..", "..", ".agents", "skills", "a"]),
                   (["r", ".claude", "skills"], Node.dir),
                   (["r", ".claude"], Node.dir),
                   (["r"], Node.dir),
                   (["r", ".agents"], Node.dir),
                   (["r", ".agents", "skills"], Node.dir),
                   (["r", ".agents", "skills", "a"], Node.dir) ] }
    { created := [{ skill := "a", agent := "claude-code",
                    source := ["r", ".agents", "skills", "a"],
                    target := ["r", ".claude", "skills", "a"], reason := none }],
      skipped := [], failed := [] }
    (by decide) (by decide) rfl (by decide) (by decide) rfl rfl

/-- C1 counterexample: with a real (non-symlink) directory at the
link path, a second identical run reports the pair skipped with
reason "real directory exists, skipping", not "already linked" —
refuting the claim that every pair of the second run is reported as
skipped with reason "already linked". -/
theorem claim1_counterexample :
    syncSkills
      { entries := [ (["r", ".agents"], Node.dir),
                     (["r", ".agents", "skills"], Node.dir),
                     (["r", ".agents", "skills", "a"], Node.dir),
                     (["r", ".claude"], Node.dir),
                     (["r", ".claude", "skills"], Node.dir),
                     (["r", ".claude", "skills", "a"], Node.dir) ] } ["r"]
      { agents := [("claude-code", [".claude", "skills"])] } =
      .ok ({ entries := [ (["r", ".agents"], Node.dir),
                     (["r", ".agents", "skills"], Node.dir),
                     (["r", ".agents", "skills", "a"], Node.dir),
                     (["r", ".claude"], Node.dir),
                     (["r", ".claude", "skills"], Node.dir),
                     (["r", ".claude", "skills", "a"], Node.dir) ] },
        { created := [],
          skipped := [{ skill := "a", agent := "claude-code",
                        source := ["r", ".agents", "skills", "a"],
                        target := ["r", ".claude", "skills", "a"],
                        reason := some "real directory exists, skipping" }],
          failed := [] }) ∧
    ({ created := [],
       skipped := [{ skill := "a", agent := "claude-code",
                     source := ["r", ".agents", "skills", "a"],
                     target := ["r", ".claude", "skills", "a"],
                     reason := some "real directory exists, skipping" }],
       failed := [] } : SyncResult).skipped.all
      (fun e => e.reason == some "already linked") = false := by
  constructor
  · rfl
  · decide

/-! ### Status lemmas -/

theorem statusSkill_of_goodAt {fs : FSys} {root dir : FPath} {s : String} {n : Node}
    (hden : fs.denied = []) (hg : goodAt fs root dir s n) :
    statusSkill fs root dir s = .linked := by
  obtain ⟨hfe, hn⟩ := hg
  have hnden : joinP dir [s] ∉ fs.denied := by rw [hden]; exact List.not_mem_nil _
  unfold statusSkill
  dsimp only
  rcases hn with rfl | hnl
  · rw [isSymlink_of_link hnden hfe, if_pos rfl, readlinkD_of_link hfe,
      if_pos (show expectedFor root dir s =
        relativeP dir (joinP root (CANONICAL_SOURCE ++ [s])) from rfl)]
  · have hslf : isSymlink fs (joinP dir [s]) = false := by
      cases hq : isSymlink fs (joinP dir [s])
      · rfl
      · obtain ⟨_, d, hfeL⟩ := (isSymlink_true_iff _ _).mp hq
        rw [hfeL] at hfe
        cases hfe
        simp [Node.isLink] at hnl
    rw [hslf]
    simp only [Bool.false_eq_true, if_false]
    rw [existsSync_of_nonlink hnden hfe hnl, if_pos rfl]

theorem goodAt_of_statusSkill_linked {fs : FSys} {root dir : FPath} {s : String}
    (h : statusSkill fs root dir s = .linked) :
    ∃ n, goodAt fs root dir s n := by
  unfold statusSkill at h
  dsimp only at h
  by_cases hsl : isSymlink fs (joinP dir [s]) = true
  · rw [if_pos hsl] at h
    obtain ⟨hnden, d, hfe⟩ := (isSymlink_true_iff _ _).mp hsl
    rw [readlinkD_of_link hfe] at h
    by_cases heq : d = relativeP dir (joinP root (CANONICAL_SOURCE ++ [s]))
    · subst heq
      exact ⟨Node.symlink _, hfe, Or.inl rfl⟩
    · rw [if_neg heq] at h
      cases h
  · rw [if_neg hsl] at h
    have hslf : isSymlink fs (joinP dir [s]) = false := by
      revert hsl; cases isSymlink fs (joinP dir [s]) <;> simp
    by_cases hex : existsSync fs (joinP dir [s]) = true
    · obtain ⟨n, hfe, hnl⟩ := findEntry_nonlink_of_real_branch hex hslf
      exact ⟨n, hfe, Or.inr hnl⟩
    · rw [if_neg hex] at h
      cases h

theorem statusFold_buckets (fs : FSys) (root dir : FPath) :
    ∀ (skills : List String) (st : StatusEntry),
      (skills.foldl (fun st skill =>
        match statusSkill fs root dir skill with
        | .linked => { st with linked := st.linked ++ [skill] }
        | .unlinked => { st with unlinked := st.unlinked ++ [skill] }
        | .wrong => { st with wrong := st.wrong ++ [skill] }) st) =
      { st with
        linked := st.linked ++
          skills.filter (fun s => statusSkill fs root dir s == SkillStatus.linked),
        unlinked := st.unlinked ++
          skills.filter (fun s => statusSkill fs root dir s == SkillStatus.unlinked),
        wrong := st.wrong ++
          skills.filter (fun s => statusSkill fs root dir s == SkillStatus.wrong) } := by
  intro skills
  induction skills with
  | nil =>
    intro st
    simp
  | cons s rest ih =>
    intro st
    rw [List.foldl_cons]
    cases hss : statusSkill fs root dir s with
    | linked =>
      rw [ih]
      simp [List.filter_cons, hss, List.append_assoc]
    | unlinked =>
      rw [ih]
      simp [List.filter_cons, hss, List.append_assoc]
    | wrong =>
      rw [ih]
      simp [List.filter_cons, hss, List.append_assoc]

theorem statusAgent_eq (fs : FSys) (root : FPath) (skills : List String) (a : String)
    (rel : FPath) :
    statusAgent fs root skills a rel =
      { agent := a, skillsDir := rel,
        linked := skills.filter
          (fun s => statusSkill fs root (joinP root rel) s == SkillStatus.linked),
        unlinked := skills.filter
          (fun s => statusSkill fs root (joinP root rel) s == SkillStatus.unlinked),
        wrong := skills.filter
          (fun s => statusSkill fs root (joinP root rel) s == SkillStatus.wrong) } := by
  unfold statusAgent
  rw [statusFold_buckets]
  simp

theorem getStatus_ok_elim {fs : FSys} {root : FPath} {opts : SyncOptions}
    {sts : List StatusEntry} (h : getStatus fs root opts = .ok sts) :
    ∃ skills, discoverSkills fs root = .ok skills ∧
      sts = (targetAgents opts).map (fun a => statusAgent fs root skills a.1 a.2) := by
  unfold getStatus at h
  cases hd : discoverSkills fs root with
  | error e => rw [hd] at h; cases h
  | ok skills =>
    rw [hd] at h
    cases h
    exact ⟨skills, rfl, rfl⟩

theorem syncSkills_preserves_nonlink {fs : FSys} {root : FPath} {opts : SyncOptions}
    {fs1 : FSys} {r1 : SyncResult} {q : FPath} {n : Node}
    (hrun : syncSkills fs root opts = .ok (fs1, r1))
    (hfe : findEntry fs.entries q = some n) (hnl : n.isLink = false) :
    findEntry fs1.entries q = some n := by
  obtain ⟨skills, _, hloop⟩ := syncSkills_ok_elim hrun
  exact syncAgentsLoop_preserves_nonlink hloop hfe hnl

theorem syncSkills_preserves_good {fs : FSys} {root : FPath} {opts : SyncOptions}
    {fs1 : FSys} {r1 : SyncResult} {dir0 : FPath} {s0 : String} {n0 : Node}
    (hwf : ∀ e ∈ fs.entries, cleanPath e.1)
    (hdir0 : cleanPath dir0) (hs0 : cleanComp s0)
    (hrun : syncSkills fs root opts = .ok (fs1, r1))
    (hg : goodAt fs root dir0 s0 n0) : goodAt fs1 root dir0 s0 n0 := by
  obtain ⟨skills, hdisc, hloop⟩ := syncSkills_ok_elim hrun
  exact syncAgentsLoop_preserves_good hdir0 hs0 (discoverSkills_clean hwf hdisc) hloop hg

/-! ### Claim C6 -/

/-- C6: after a successful non-preview `syncSkills` run (well-formed
filesystem, no read-denied paths, canonical root a real directory),
every item that `getStatus` reported as `unlinked` or `wrong` for a
selected agent is reported as `linked` by `getStatus` on the
resulting state, and every item already reported `linked` is still
`linked` with the entry at its link path unchanged by the sync. -/
theorem claim6_status_sync_agreement
    {fs : FSys} {root : FPath} {opts : SyncOptions} {fs1 : FSys} {r1 : SyncResult}
    {sts : List StatusEntry} {i : Nat} {ag : String × FPath} {st : StatusEntry}
    (hwf : ∀ e ∈ fs.entries, cleanPath e.1)
    (hnd : (fs.entries.map Prod.fst).Nodup)
    (hden : fs.denied = [])
    (hcanon : findEntry fs.entries (joinP root CANONICAL_SOURCE) = some Node.dir)
    (hdry : opts.dryRun = false)
    (hrun : syncSkills fs root opts = .ok (fs1, r1))
    (hsts : getStatus fs root opts = .ok sts)
    (hi : (targetAgents opts).get? i = some ag)
    (hst : sts.get? i = some st) :
    ∃ sts1, getStatus fs1 root opts = .ok sts1 ∧
      ∃ st1, sts1.get? i = some st1 ∧
        (∀ s, s ∈ st.unlinked ∨ s ∈ st.wrong → s ∈ st1.linked) ∧
        (∀ s ∈ st.linked, s ∈ st1.linked ∧
          findEntry fs1.entries (joinP (joinP root ag.2) [s]) =
            findEntry fs.entries (joinP (joinP root ag.2) [s])) := by
  obtain ⟨skills, hdisc, hcl, hden1, hcanon1, hgood⟩ :=
    syncSkills_run_facts hwf hden hcanon hdry hrun
  obtain ⟨skills0, hdisc0, hstseq⟩ := getStatus_ok_elim hsts
  rw [hdisc] at hdisc0
  cases hdisc0
  have hex1 : existsSync fs1 (joinP root CANONICAL_SOURCE) = true :=
    existsSync_of_nonlink (by rw [hden1]; exact List.not_mem_nil _) hcanon1 rfl
  have hdisc1 := discoverSkills_ok_of_existsSync hex1
  have hagmem : ag ∈ targetAgents opts := List.get?_mem hi
  have hstEq : st = statusAgent fs root skills ag.1 ag.2 := by
    rw [hstseq, List.get?_map, hi] at hst
    simpa using hst.symm
  have hmemskills1 : ∀ s ∈ skills, s ∈
      (((childEntries fs1.entries (joinP root CANONICAL_SOURCE)).filter
        (fun e => e.2.isDir)).map (fun e => e.1)) := by
    intro s hs
    have hfe0 := discoverSkills_findEntry hnd hdisc s hs
    have hfe1 := syncSkills_preserves_nonlink hrun hfe0 rfl
    exact (discoverSkills_mem_iff hdisc1).mpr (mem_of_findEntry hfe1)
  refine ⟨(targetAgents opts).map
      (fun a => statusAgent fs1 root
        (((childEntries fs1.entries (joinP root CANONICAL_SOURCE)).filter
          (fun e => e.2.isDir)).map (fun e => e.1)) a.1 a.2), ?_, ?_⟩
  · unfold getStatus
    rw [hdisc1]
  refine ⟨statusAgent fs1 root
      (((childEntries fs1.entries (joinP root CANONICAL_SOURCE)).filter
        (fun e => e.2.isDir)).map (fun e => e.1)) ag.1 ag.2, ?_, ?_, ?_⟩
  · rw [List.get?_map, hi]
    rfl
  · intro s hsw
    have hsskills : s ∈ skills := by
      rw [hstEq, statusAgent_eq] at hsw
      rcases hsw with hsw | hsw
      · exact (List.mem_filter.mp hsw).1
      · exact (List.mem_filter.mp hsw).1
    obtain ⟨n, hg1⟩ := hgood ag hagmem s hsskills
    rw [statusAgent_eq]
    exact List.mem_filter.mpr ⟨hmemskills1 s hsskills,
      by rw [statusSkill_of_goodAt hden1 hg1]; rfl⟩
  · intro s hsl
    rw [hstEq, statusAgent_eq] at hsl
    obtain ⟨hsskills, hbeq⟩ := List.mem_filter.mp hsl
    have hssl : statusSkill fs root (joinP root ag.2) s = .linked := by
      simpa using hbeq
    obtain ⟨n, hg0⟩ := goodAt_of_statusSkill_linked hssl
    have hg1 : goodAt fs1 root (joinP root ag.2) s n :=
      syncSkills_preserves_good hwf (cleanPath_joinP root ag.2) (hcl s hsskills) hrun hg0
    constructor
    · rw [statusAgent_eq]
      exact List.mem_filter.mpr ⟨hmemskills1 s hsskills,
        by rw [statusSkill_of_goodAt hden1 hg1]; rfl⟩
    · rw [hg1.1, hg0.1]

/-- C6 witness: concrete instantiation of `claim6_status_sync_agreement`:
the skill reported `unlinked` before sync is reported `linked` after. -/
theorem claim6_status_sync_agreement_witness :
    ∃ sts1, getStatus
      { entries := [ (["r", ".claude", "skills", "a"],
                       Node.symlink ["..", "..", ".agents", "skills", "a"]),
                     (["r", ".claude", "skills"], Node.dir),
                     (["r", ".claude"], Node.dir),
                     (["r"], Node.dir),
                     (["r", ".agents"], Node.dir),
                     (["r", ".agents", "skills"], Node.dir),
                     (["r", ".agents", "skills", "a"], Node.dir) ] } ["r"]
      { agents := [("claude-code", [".claude", "skills"])] } = .ok sts1 ∧
    ∃ st1, sts1.get? 0 = some st1 ∧
      (∀ s, s ∈ ["a"] ∨ s ∈ ([] : List String) → s ∈ st1.linked) ∧
      (∀ s ∈ ([] : List String), s ∈ st1.linked ∧
        findEntry [ (["r", ".claude", "skills", "a"],
                      Node.symlink ["..", "..", ".agents", "skills", "a"]),
                    (["r", ".claude", "skills"], Node.dir),
                    (["r", ".claude"], Node.dir),
                    (["r"], Node.dir),
                    (["r", ".agents"], Node.dir),
                    (["r", ".agents", "skills"], Node.dir),
                    (["r", ".agents", "skills", "a"], Node.dir) ]
            (joinP (joinP ["r"] [".claude", "skills"]) [s]) =
          findEntry [ (["r", ".agents"], Node.dir),
                      (["r", ".agents", "skills"], Node.dir),
                      (["r", ".agents", "skills", "a"], Node.dir) ]
            (joinP (joinP ["r"] [".claude", "skills"]) [s])) :=
  @claim6_status_sync_agreement
    { entries := [ (["r", ".agents"], Node.dir),
                   (["r", ".agents", "skills"], Node.dir),
                   (["r", ".agents", "skills", "a"], Node.dir) ] }
    ["r"]
    { agents := [("claude-code", [".claude", "skills"])] }
    { entries := [ (["r", ".claude", "skills", "a"],
                     Node.symlink ["..", "..", ".agents", "skills", "a"]),
                   (["r", ".claude", "skills"], Node.dir),
                   (["r", ".claude"], Node.dir),
                   (["r"], Node.dir),
                   (["r", ".agents"], Node.dir),
                   (["r", ".agents", "skills"], Node.dir),
                   (["r", ".agents", "skills", "a"], Node.dir) ] }
    { created := [{ skill := "a", agent := "claude-code",
                    source := ["r", ".agents", "skills", "a"],
                    target := ["r", ".claude", "skills", "a"], reason := none }],
      skipped := [], failed := [] }
    [{ agent := "claude-code", skillsDir := [".claude", "skills"],
       linked := [], unlinked := ["a"], wrong := [] }]
    0
    ("claude-code", [".claude", "skills"])
    { agent := "claude-code", skillsDir := [".claude", "skills"],
      linked := [], unlinked := ["a"], wrong := [] }
    (by decide) (by decide) rfl (by decide) rfl rfl rfl rfl rfl

theorem syncSkillsLoop_skip_real_mem {root : FPath} {dry : Bool} {a : String} {dir : FPath}
    {s0 : String} {n : Node} :
    ∀ {skills : List String} {fs fs' : FSys} {res res' : SyncResult},
      fs.denied = [] →
      findEntry fs.entries (joinP dir [s0]) = some n → n.isLink = false →
      s0 ∈ skills →
      syncSkillsLoop root dry a dir skills fs res = .ok (fs', res') →
      ∃ e ∈ res'.skipped,
        e = pairEntryR root a dir s0 (some "real directory exists, skipping") := by
  intro skills
  induction skills with
  | nil =>
    intro fs fs' res res' _ _ _ hs _
    cases hs
  | cons s rest ih =>
    intro fs fs' res res' hden hfe hnl hs h
    unfold syncSkillsLoop at h
    rcases List.mem_cons.mp hs with rfl | hs'
    · have hstep := @syncStep_on_linked root dry a dir s0 fs res n
        (by rw [hden]; exact List.not_mem_nil _) ⟨hfe, Or.inr hnl⟩
      rw [hnl] at hstep
      rw [hstep] at h
      have h' : syncSkillsLoop root dry a dir rest fs
          { res with skipped := res.skipped ++
            [pairEntryR root a dir s0 (some "real directory exists, skipping")] } =
          .ok (fs', res') := h
      obtain ⟨_, _, ls, _, hsk, _⟩ := syncSkillsLoop_res h'
      refine ⟨pairEntryR root a dir s0 (some "real directory exists, skipping"), ?_, rfl⟩
      rw [hsk]
      simp
    · cases hst : syncStep root dry a dir s fs res with
      | error e => rw [hst] at h; cases h
      | ok p =>
        rw [hst] at h
        have hfe1 := syncStep_preserves_nonlink hst hfe hnl
        have hden1 : p.1.denied = [] := by
          rw [(syncStep_denied_ro hst).1, hden]
        exact ih hden1 hfe1 hnl hs' h

theorem syncAgentsLoop_skip_real_mem {root : FPath} {dry : Bool} {skills : List String}
    {ag0 : String × FPath} {s0 : String} {n : Node} :
    ∀ {agents : List (String × FPath)} {fs fs' : FSys} {res res' : SyncResult},
      fs.denied = [] →
      findEntry fs.entries (joinP (joinP root ag0.2) [s0]) = some n → n.isLink = false →
      ag0 ∈ agents → s0 ∈ skills →
      syncAgentsLoop root dry skills agents fs res = .ok (fs', res') →
      ∃ e ∈ res'.skipped,
        e = pairEntryR root ag0.1 (joinP root ag0.2) s0
          (some "real directory exists, skipping") := by
  intro agents
  induction agents with
  | nil =>
    intro fs fs' res res' _ _ _ hag _ _
    cases hag
  | cons ag rest ih =>
    intro fs fs' res res' hden hfe hnl hag hs h
    unfold syncAgentsLoop at h
    cases hst : syncSkillsLoop root dry ag.1 (joinP root ag.2) skills fs res with
    | error e => rw [hst] at h; cases h
    | ok p =>
      rw [hst] at h
      rcases List.mem_cons.mp hag with rfl | hag'
      · obtain ⟨e, he, hee⟩ := syncSkillsLoop_skip_real_mem hden hfe hnl hs hst
        obtain ⟨_, _, ls, _, hsk, _⟩ := syncAgentsLoop_res h
        refine ⟨e, ?_, hee⟩
        rw [hsk]
        exact List.mem_append.mpr (Or.inl he)
      · have hfe1 := syncSkillsLoop_preserves_nonlink hst hfe hnl
        have hden1 : p.1.denied = [] := by
          rw [(syncSkillsLoop_denied_ro hst).1, hden]
        exact ih hden1 hfe1 hnl hag' hs h

/-! ### Claim C2 -/

/-- C2 (amended): a real (non-symlink) entry at a pair's link path is
never touched by `syncSkills`: the entry itself is unchanged, the
pair is reported skipped with reason "real directory exists,
skipping", and no `created` outcome targets that path.  Its whole
subtree is also unchanged provided no selected agent's skills
directory equals or lies below the entry's path. -/
theorem claim2_real_entry_preserved
    {fs : FSys} {root : FPath} {opts : SyncOptions} {fs1 : FSys} {r1 : SyncResult}
    {ag : String × FPath} {s : String} {n : Node} {skills : List String}
    (hwf : ∀ e ∈ fs.entries, cleanPath e.1)
    (hden : fs.denied = [])
    (hdisc : discoverSkills fs root = .ok skills)
    (hag : ag ∈ targetAgents opts)
    (hs : s ∈ skills)
    (hfe : findEntry fs.entries (joinP (joinP root ag.2) [s]) = some n)
    (hnl : n.isLink = false)
    (hrun : syncSkills fs root opts = .ok (fs1, r1)) :
    findEntry fs1.entries (joinP (joinP root ag.2) [s]) = some n ∧
    (∃ e ∈ r1.skipped, e = pairEntryR root ag.1 (joinP root ag.2) s
      (some "real directory exists, skipping")) ∧
    (∀ e ∈ r1.created, e.target ≠ joinP (joinP root ag.2) [s]) ∧
    ((∀ ag' ∈ targetAgents opts, ¬ joinP (joinP root ag.2) [s] <+: joinP root ag'.2) →
      ∀ q, joinP (joinP root ag.2) [s] <+: q → joinP (joinP root ag.2) [s] ≠ q →
        findEntry fs1.entries q = findEntry fs.entries q) := by
  obtain ⟨skills0, hdisc0, hloop⟩ := syncSkills_ok_elim hrun
  rw [hdisc] at hdisc0
  cases hdisc0
  have hcl := discoverSkills_clean hwf hdisc
  have hnden : joinP (joinP root ag.2) [s] ∉ fs.denied := by
    rw [hden]; exact List.not_mem_nil _
  refine ⟨?_, ?_, ?_, ?_⟩
  · exact syncAgentsLoop_preserves_nonlink hloop hfe hnl
  · exact syncAgentsLoop_skip_real_mem hden hfe hnl hag hs hloop
  · intro e he
    rcases syncAgentsLoop_created_excl hloop hfe hnl hnden e he with h1 | h1
    · cases h1
    · exact h1
  · intro hnosub q hpre hne
    exact syncAgentsLoop_subtree hcl hnosub hloop q hpre hne

/-- C2 witness: concrete instantiation of `claim2_real_entry_preserved`
on a mirror root holding a pre-existing real directory. -/
theorem claim2_real_entry_preserved_witness :
    findEntry [ (["r", ".agents"], Node.dir),
                (["r", ".agents", "skills"], Node.dir),
                (["r", ".agents", "skills", "a"], Node.dir),
                (["r", ".claude"], Node.dir),
                (["r", ".claude", "skills"], Node.dir),
                (["r", ".claude", "skills", "a"], Node.dir) ]
      (joinP (joinP ["r"] [".claude", "skills"]) ["a"]) = some Node.dir ∧
    (∃ e ∈ [{ skill := "a", agent := "claude-code",
              source := ["r", ".agents", "skills", "a"],
              target := ["r", ".claude", "skills", "a"],
              reason := some "real directory exists, skipping" }],
      e = pairEntryR ["r"] "claude-code" (joinP ["r"] [".claude", "skills"]) "a"
        (some "real directory exists, skipping")) ∧
    (∀ e ∈ ([] : List SyncEntry),
      e.target ≠ joinP (joinP ["r"] [".claude", "skills"]) ["a"]) ∧
    ((∀ ag' ∈ targetAgents { agents := [("claude-code", [".claude", "skills"])] },
        ¬ joinP (joinP ["r"] [".claude", "skills"]) ["a"] <+: joinP ["r"] ag'.2) →
      ∀ q, joinP (joinP ["r"] [".claude", "skills"]) ["a"] <+: q →
        joinP (joinP ["r"] [".claude", "skills"]) ["a"] ≠ q →
        findEntry [ (["r", ".agents"], Node.dir),
                    (["r", ".agents", "skills"], Node.dir),
                    (["r", ".agents", "skills", "a"], Node.dir),
                    (["r", ".claude"], Node.dir),
                    (["r", ".claude", "skills"], Node.dir),
                    (["r", ".claude", "skills", "a"], Node.dir) ] q =
          findEntry [ (["r", ".agents"], Node.dir),
                    (["r", ".agents", "skills"], Node.dir),
                    (["r", ".agents", "skills", "a"], Node.dir),
                    (["r", ".claude"], Node.dir),
                    (["r", ".claude", "skills"], Node.dir),
                    (["r", ".claude", "skills", "a"], Node.dir) ] q) :=
  @claim2_real_entry_preserved
    { entries := [ (["r", ".agents"], Node.dir),
                   (["r", ".agents", "skills"], Node.dir),
                   (["r", ".agents", "skills", "a"], Node.dir),
                   (["r", ".claude"], Node.dir),
                   (["r", ".claude", "skills"], Node.dir),
                   (["r", ".claude", "skills", "a"], Node.dir) ] }
    ["r"]
    { agents := [("claude-code", [".claude", "skills"])] }
    { entries := [ (["r", ".agents"], Node.dir),
                   (["r", ".agents", "skills"], Node.dir),
                   (["r", ".agents", "skills", "a"], Node.dir),
                   (["r", ".claude"], Node.dir),
                   (["r", ".claude", "skills"], Node.dir),
                   (["r", ".claude", "skills", "a"], Node.dir) ] }
    { created := [],
      skipped := [{ skill := "a", agent := "claude-code",
                    source := ["r", ".agents", "skills", "a"],
                    target := ["r", ".claude", "skills", "a"],
                    reason := some "real directory exists, skipping" }],
      failed := [] }
    ("claude-code", [".claude", "skills"])
    "a"
    Node.dir
    ["a"]
    (by decide) rfl rfl (by decide) (by decide) rfl rfl rfl

/-- C2 counterexample: with a second agent whose skills directory is
nested inside the real directory, `syncSkills` creates entries inside
the preserved real directory's subtree, so its contents are not
identical after the run. -/
theorem claim2_counterexample :
    syncSkills
      { entries := [ (["r", ".agents"], Node.dir),
                     (["r", ".agents", "skills"], Node.dir),
                     (["r", ".agents", "skills", "s"], Node.dir),
                     (["r", ".x"], Node.dir),
                     (["r", ".x", "s"], Node.dir),
                     (["r", ".x", "s", "f"], Node.file "data") ] } ["r"]
      { agents := [("a", [".x"]), ("b", [".x", "s", "inner"])] } =
      .ok ({ entries := [ (["r", ".x", "s", "inner", "s"],
                            Node.symlink ["..", "..", "..", ".agents", "skills", "s"]),
                          (["r", ".x", "s", "inner"], Node.dir),
                          (["r"], Node.dir),
                          (["r", ".agents"], Node.dir),
                          (["r", ".agents", "skills"], Node.dir),
                          (["r", ".agents", "skills", "s"], Node.dir),
                          (["r", ".x"], Node.dir),
                          (["r", ".x", "s"], Node.dir),
                          (["r", ".x", "s", "f"], Node.file "data") ] },
        { created := [{ skill := "s", agent := "b",
                        source := ["r", ".agents", "skills", "s"],
                        target := ["r", ".x", "s", "inner", "s"], reason := none }],
          skipped := [{ skill := "s", agent := "a",
                        source := ["r", ".agents", "skills", "s"],
                        target := ["r", ".x", "s"],
                        reason := some "real directory exists, skipping" }],
          failed := [] }) ∧
    findEntry [ (["r", ".agents"], Node.dir),
                (["r", ".agents", "skills"], Node.dir),
                (["r", ".agents", "skills", "s"], Node.dir),
                (["r", ".x"], Node.dir),
                (["r", ".x", "s"], Node.dir),
                (["r", ".x", "s", "f"], Node.file "data") ]
      ["r", ".x", "s", "inner"] = none ∧
    findEntry [ (["r", ".x", "s", "inner", "s"],
                  Node.symlink ["..", "..", "..", ".agents", "skills", "s"]),
                (["r", ".x", "s", "inner"], Node.dir),
                (["r"], Node.dir),
                (["r", ".agents"], Node.dir),
                (["r", ".agents", "skills"], Node.dir),
                (["r", ".agents", "skills", "s"], Node.dir),
                (["r", ".x"], Node.dir),
                (["r", ".x", "s"], Node.dir),
                (["r", ".x", "s", "f"], Node.file "data") ]
      ["r", ".x", "s", "inner"] = some Node.dir ∧
    (["r", ".x", "s"] <+: ["r", ".x", "s", "inner"]) := by
  refine ⟨rfl, rfl, rfl, ?_⟩
  decide

/-! ### Clean operation: preview totality -/

theorem cleanStep_dry_total (root : FPath) (a : String) (dir : FPath) (name : String)
    (fs : FSys) (res : SyncResult) :
    ∃ res', cleanStep root true a dir name fs res = .ok (fs, res') := by
  unfold cleanStep
  by_cases hsl : isSymlink fs (joinP dir [name]) = true
  · simp only [hsl, Bool.not_true, Bool.false_eq_true, if_false]
    by_cases hsw : strStartsWith (renderP (joinP dir (readlinkD fs (joinP dir [name]))))
        (renderP (joinP root CANONICAL_SOURCE)) = true
    · simp only [hsw, Bool.not_true, Bool.false_eq_true, if_false, if_pos]
      exact ⟨_, rfl⟩
    · have hsw' : strStartsWith (renderP (joinP dir (readlinkD fs (joinP dir [name]))))
          (renderP (joinP root CANONICAL_SOURCE)) = false := by
        revert hsw
        cases strStartsWith (renderP (joinP dir (readlinkD fs (joinP dir [name]))))
          (renderP (joinP root CANONICAL_SOURCE)) <;> simp
      simp only [hsw', Bool.not_false, if_true]
      exact ⟨_, rfl⟩
  · have hsl' : isSymlink fs (joinP dir [name]) = false := by
      revert hsl
      cases isSymlink fs (joinP dir [name]) <;> simp
    simp only [hsl', Bool.not_false, if_true]
    exact ⟨_, rfl⟩

theorem cleanEntriesLoop_dry_total (root : FPath) (a : String) (dir : FPath) :
    ∀ (names : List String) (fs : FSys) (res : SyncResult),
      ∃ res', cleanEntriesLoop root true a dir names fs res = .ok (fs, res') := by
  intro names
  induction names with
  | nil =>
    intro fs res
    exact ⟨res, rfl⟩
  | cons name rest ih =>
    intro fs res
    obtain ⟨res1, hst⟩ := cleanStep_dry_total root a dir name fs res
    obtain ⟨res2, hloop⟩ := ih fs res1
    refine ⟨res2, ?_⟩
    unfold cleanEntriesLoop
    rw [hst]
    exact hloop

theorem cleanAgentsLoop_dry_total (root : FPath) :
    ∀ (agents : List (String × FPath)) (fs : FSys) (res : SyncResult),
      ∃ res', cleanAgentsLoop root true agents fs res = .ok (fs, res') := by
  intro agents
  induction agents with
  | nil =>
    intro fs res
    exact ⟨res, rfl⟩
  | cons ag rest ih =>
    intro fs res
    unfold cleanAgentsLoop
    by_cases hex : existsSync fs (joinP root ag.2) = true
    · rw [if_pos hex]
      obtain ⟨res1, hst⟩ := cleanEntriesLoop_dry_total root ag.1 (joinP root ag.2)
        ((childEntries fs.entries (joinP root ag.2)).map (fun e => e.1)) fs res
      obtain ⟨res2, hloop⟩ := ih fs res1
      refine ⟨res2, ?_⟩
      rw [hst]
      exact hloop
    · rw [if_neg hex]
      exact ih fs res

/-! ### Claim C4 -/

/-- C4 (amended): preview (dry-run) mode performs no filesystem
mutation: `syncSkills` with the preview flag returns the state
unchanged together with a report whenever discovery succeeds, and
`cleanSkills` with the preview flag always returns the state
unchanged together with a report.  (The per-pair classification of
the preview report can differ from a non-preview run's when an
earlier pair's mutation changes a later pair's link path, e.g. two
agents sharing a mirror directory; see the counterexample.) -/
theorem claim4_preview_no_mutation
    (fs : FSys) (root : FPath) (opts : SyncOptions) :
    ((∃ skills, discoverSkills fs root = .ok skills) →
      ∃ r, syncSkills fs root { opts with dryRun := true } = .ok (fs, r)) ∧
    (∃ r, cleanSkills fs root { opts with dryRun := true } = .ok (fs, r)) := by
  constructor
  · rintro ⟨skills, hdisc⟩
    obtain ⟨r, hloop⟩ := syncAgentsLoop_dry_total root skills
      (targetAgents { opts with dryRun := true }) fs ⟨[], [], []⟩
    refine ⟨r, ?_⟩
    unfold syncSkills
    rw [hdisc]
    exact hloop
  · obtain ⟨r, hloop⟩ := cleanAgentsLoop_dry_total root
      (targetAgents { opts with dryRun := true }) fs ⟨[], [], []⟩
    exact ⟨r, hloop⟩

/-- C4 witness: concrete instantiation of `claim4_preview_no_mutation`. -/
theorem claim4_preview_no_mutation_witness :
    ((∃ skills, discoverSkills
        { entries := [ (["r", ".agents"], Node.dir),
                       (["r", ".agents", "skills"], Node.dir),
                       (["r", ".agents", "skills", "a"], Node.dir) ] } ["r"] = .ok skills) →
      ∃ r, syncSkills
        { entries := [ (["r", ".agents"], Node.dir),
                       (["r", ".agents", "skills"], Node.dir),
                       (["r", ".agents", "skills", "a"], Node.dir) ] } ["r"]
        { agents := [("claude-code", [".claude", "skills"])], dryRun := true } =
        .ok ({ entries := [ (["r", ".agents"], Node.dir),
                       (["r", ".agents", "skills"], Node.dir),
                       (["r", ".agents", "skills", "a"], Node.dir) ] }, r)) ∧
    (∃ r, cleanSkills
        { entries := [ (["r", ".agents"], Node.dir),
                       (["r", ".agents", "skills"], Node.dir),
                       (["r", ".agents", "skills", "a"], Node.dir) ] } ["r"]
        { agents := [("claude-code", [".claude", "skills"])], dryRun := true } =
        .ok ({ entries := [ (["r", ".agents"], Node.dir),
                       (["r", ".agents", "skills"], Node.dir),
                       (["r", ".agents", "skills", "a"], Node.dir) ] }, r)) :=
  claim4_preview_no_mutation
    { entries := [ (["r", ".agents"], Node.dir),
                   (["r", ".agents", "skills"], Node.dir),
                   (["r", ".agents", "skills", "a"], Node.dir) ] }
    ["r"]
    { agents := [("claude-code", [".claude", "skills"])] }

/-- C4 counterexample: with two agents sharing one mirror directory,
the preview run classifies both pairs as `created`, while the real
run on the same state creates the first and skips the second as
"already linked" — the preview's per-pair classification does not
match the non-preview run's. -/
theorem claim4_counterexample :
    syncSkills
      { entries := [ (["r", ".agents"], Node.dir),
                     (["r", ".agents", "skills"], Node.dir),
                     (["r", ".agents", "skills", "a"], Node.dir) ] } ["r"]
      { agents := [("x", [".m"]), ("y", [".m"])], dryRun := true } =
      .ok ({ entries := [ (["r", ".agents"], Node.dir),
                          (["r", ".agents", "skills"], Node.dir),
                          (["r", ".agents", "skills", "a"], Node.dir) ] },
        { created := [{ skill := "a", agent := "x",
                        source := ["r", ".agents", "skills", "a"],
                        target := ["r", ".m", "a"], reason := none },
                      { skill := "a", agent := "y",
                        source := ["r", ".agents", "skills", "a"],
                        target := ["r", ".m", "a"], reason := none }],
          skipped := [], failed := [] }) ∧
    syncSkills
      { entries := [ (["r", ".agents"], Node.dir),
                     (["r", ".agents", "skills"], Node.dir),
                     (["r", ".agents", "skills", "a"], Node.dir) ] } ["r"]
      { agents := [("x", [".m"]), ("y", [".m"])] } =
      .ok ({ entries := [ (["r", ".m", "a"],
                            Node.symlink ["..", ".agents", "skills", "a"]),
                          (["r", ".m"], Node.dir),
                          (["r"], Node.dir),
                          (["r", ".agents"], Node.dir),
                          (["r", ".agents", "skills"], Node.dir),
                          (["r", ".agents", "skills", "a"], Node.dir) ] },
        { created := [{ skill := "a", agent := "x",
                        source := ["r", ".agents", "skills", "a"],
                        target := ["r", ".m", "a"], reason := none }],
          skipped := [{ skill := "a", agent := "y",
                        source := ["r", ".agents", "skills", "a"],
                        target := ["r", ".m", "a"],
                        reason := some "already linked" }],
          failed := [] }) ∧
    ([{ skill := "a", agent := "x",
        source := ["r", ".agents", "skills", "a"],
        target := ["r", ".m", "a"], reason := none },
      { skill := "a", agent := "y",
        source := ["r", ".agents", "skills", "a"],
        target := ["r", ".m", "a"], reason := none }] : List SyncEntry).any
      (fun e => e.agent == "y") = true ∧
    ([{ skill := "a", agent := "x",
        source := ["r", ".agents", "skills", "a"],
        target := ["r", ".m", "a"], reason := none }] : List SyncEntry).any
      (fun e => e.agent == "y") = false := by
  refine ⟨rfl, rfl, ?_, ?_⟩ <;> decide

/-! ### Clean operation: report shape -/

theorem cleanStep_failed {root : FPath} {dry : Bool} {a : String} {dir : FPath} {name : String}
    {fs fs' : FSys} {res res' : SyncResult}
    (h : cleanStep root dry a dir name fs res = .ok (fs', res')) :
    res'.failed = res.failed := by
  unfold cleanStep at h
  by_cases hsl : isSymlink fs (joinP dir [name]) = true
  · simp only [hsl, Bool.not_true, Bool.false_eq_true, if_false] at h
    by_cases hsw : strStartsWith (renderP (joinP dir (readlinkD fs (joinP dir [name]))))
        (renderP (joinP root CANONICAL_SOURCE)) = true
    · simp only [hsw, Bool.not_true, Bool.false_eq_true, if_false] at h
      by_cases hdry : dry = true
      · rw [if_pos hdry] at h
        cases h
        rfl
      · rw [if_neg hdry] at h
        cases hul : unlinkSync fs (joinP dir [name]) with
        | error e => rw [hul] at h; cases h
        | ok fsu =>
          rw [hul] at h
          cases h
          rfl
    · have hsw' : strStartsWith (renderP (joinP dir (readlinkD fs (joinP dir [name]))))
          (renderP (joinP root CANONICAL_SOURCE)) = false := by
        revert hsw
        cases strStartsWith (renderP (joinP dir (readlinkD fs (joinP dir [name]))))
          (renderP (joinP root CANONICAL_SOURCE)) <;> simp
      simp only [hsw', Bool.not_false, if_true] at h
      cases h
      rfl
  · have hsl' : isSymlink fs (joinP dir [name]) = false := by
      revert hsl
      cases isSymlink fs (joinP dir [name]) <;> simp
    simp only [hsl', Bool.not_false, if_true] at h
    cases h
    rfl

theorem cleanEntriesLoop_failed {root : FPath} {dry : Bool} {a : String} {dir : FPath} :
    ∀ {names : List String} {fs fs' : FSys} {res res' : SyncResult},
      cleanEntriesLoop root dry a dir names fs res = .ok (fs', res') →
      res'.failed = res.failed := by
  intro names
  induction names with
  | nil =>
    intro fs fs' res res' h
    cases h
    rfl
  | cons name rest ih =>
    intro fs fs' res res' h
    unfold cleanEntriesLoop at h
    cases hst : cleanStep root dry a dir name fs res with
    | error e => rw [hst] at h; cases h
    | ok p =>
      rw [hst] at h
      exact (ih h).trans (cleanStep_failed hst)

theorem cleanAgentsLoop_failed {root : FPath} {dry : Bool} :
    ∀ {agents : List (String × FPath)} {fs fs' : FSys} {res res' : SyncResult},
      cleanAgentsLoop root dry agents fs res = .ok (fs', res') →
      res'.failed = res.failed := by
  intro agents
  induction agents with
  | nil =>
    intro fs fs' res res' h
    cases h
    rfl
  | cons ag rest ih =>
    intro fs fs' res res' h
    unfold cleanAgentsLoop at h
    by_cases hex : existsSync fs (joinP root ag.2) = true
    · rw [if_pos hex] at h
      cases hst : cleanEntriesLoop root dry ag.1 (joinP root ag.2)
          ((childEntries fs.entries (joinP root ag.2)).map (fun e => e.1)) fs res with
      | error e => rw [hst] at h; cases h
      | ok p =>
        rw [hst] at h
        exact (ih h).trans (cleanEntriesLoop_failed hst)
    · rw [if_neg hex] at h
      exact ih h

/-! ### Claim C5 -/

/-- C5 (amended): the engine never records a `failed` outcome — there
is no exception handling around link creation or removal, so any
report returned by a completed `syncSkills` or `cleanSkills` run has
an empty `failed` list, and a failing mutation aborts the whole run
with an error instead of being recorded pair-locally. -/
theorem claim5_failed_never_populated
    {fs : FSys} {root : FPath} {opts : SyncOptions} {fs1 : FSys} {r : SyncResult} :
    (syncSkills fs root opts = .ok (fs1, r) → r.failed = []) ∧
    (cleanSkills fs root opts = .ok (fs1, r) → r.failed = []) := by
  constructor
  · intro h
    obtain ⟨skills, _, hloop⟩ := syncSkills_ok_elim h
    exact (syncAgentsLoop_res hloop).1
  · intro h
    exact cleanAgentsLoop_failed h

/-- C5 witness: concrete instantiation of `claim5_failed_never_populated`
on a successful run. -/
theorem claim5_failed_never_populated_witness :
    ({ created := [{ skill := "a", agent := "claude-code",
                     source := ["r", ".agents", "skills", "a"],
                     target := ["r", ".claude", "skills", "a"], reason := none }],
       skipped := [], failed := [] } : SyncResult).failed = ([] : List SyncEntry) :=
  (@claim5_failed_never_populated
    { entries := [ (["r", ".agents"], Node.dir),
                   (["r", ".agents", "skills"], Node.dir),
                   (["r", ".agents", "skills", "a"], Node.dir) ] }
    ["r"]
    { agents := [("claude-code", [".claude", "skills"])] }
    { entries := [ (["r", ".claude", "skills", "a"],
                     Node.symlink ["..", "..", ".agents", "skills", "a"]),
                   (["r", ".claude", "skills"], Node.dir),
                   (["r", ".claude"], Node.dir),
                   (["r"], Node.dir),
                   (["r", ".agents"], Node.dir),
                   (["r", ".agents", "skills"], Node.dir),
                   (["r", ".agents", "skills", "a"], Node.dir) ] }
    { created := [{ skill := "a", agent := "claude-code",
                    source := ["r", ".agents", "skills", "a"],
                    target := ["r", ".claude", "skills", "a"], reason := none }],
      skipped := [], failed := [] }).1 rfl

/-- C5 counterexample: when creating the symbolic link fails (the
mirror directory is write-protected), the whole `syncSkills`
invocation aborts with the underlying error; the pair is not
recorded as a `failed` outcome, and the remaining agent is never
processed — no report is returned at all. -/
theorem claim5_counterexample :
    syncSkills
      { entries := [ (["r", ".agents"], Node.dir),
                     (["r", ".agents", "skills"], Node.dir),
                     (["r", ".agents", "skills", "a"], Node.dir),
                     (["r", ".blocked"], Node.dir),
                     (["r", ".blocked", "skills"], Node.dir) ],
        roDirs := [["r", ".blocked", "skills"]] } ["r"]
      { agents := [("x", [".blocked", "skills"]), ("y", [".ok", "skills"])] } =
      .error "EACCES: permission denied" := rfl

/-! ### Claim C8 -/

/-- C8 (amended): when the canonical source root does not exist,
`syncSkills` and `getStatus` fail with a single error before any
(item, target) pair is processed and return no report; `cleanSkills`,
however, never consults the canonical source root (see the
counterexample). -/
theorem claim8_missing_root_aborts
    (fs : FSys) (root : FPath) (opts : SyncOptions)
    (hex : existsSync fs (joinP root CANONICAL_SOURCE) = false) :
    syncSkills fs root opts = .error (".agents/skills does not exist in " ++ renderP root) ∧
    getStatus fs root opts = .error (".agents/skills does not exist in " ++ renderP root) := by
  constructor
  · unfold syncSkills
    rw [discoverSkills_error_of_missing hex]
  · unfold getStatus
    rw [discoverSkills_error_of_missing hex]

/-- C8 witness: concrete instantiation of `claim8_missing_root_aborts`. -/
theorem claim8_missing_root_aborts_witness :
    syncSkills { entries := [ (["r", ".claude"], Node.dir) ] } ["r"]
      { agents := [("claude-code", [".claude", "skills"])] } =
      .error (".agents/skills does not exist in " ++ renderP ["r"]) ∧
    getStatus { entries := [ (["r", ".claude"], Node.dir) ] } ["r"]
      { agents := [("claude-code", [".claude", "skills"])] } =
      .error (".agents/skills does not exist in " ++ renderP ["r"]) :=
  claim8_missing_root_aborts
    { entries := [ (["r", ".claude"], Node.dir) ] } ["r"]
    { agents := [("claude-code", [".claude", "skills"])] }
    (by decide)

/-- C8 counterexample: with the canonical source root missing,
`cleanSkills` does not fail — it still walks the mirror root, removes
a symlink, mutates the filesystem and returns a report, refuting the
claim that every engine operation fails before any pair is
processed. -/
theorem claim8_counterexample :
    existsSync
      { entries := [ (["r", ".claude"], Node.dir),
                     (["r", ".claude", "skills"], Node.dir),
                     (["r", ".claude", "skills", "a"],
                       Node.symlink ["..", "..", ".agents", "skills", "a"]) ] }
      (joinP ["r"] CANONICAL_SOURCE) = false ∧
    cleanSkills
      { entries := [ (["r", ".claude"], Node.dir),
                     (["r", ".claude", "skills"], Node.dir),
                     (["r", ".claude", "skills", "a"],
                       Node.symlink ["..", "..", ".agents", "skills", "a"]) ] } ["r"]
      { agents := [("claude-code", [".claude", "skills"])] } =
      .ok ({ entries := [ (["r", ".claude"], Node.dir),
                          (["r", ".claude", "skills"], Node.dir) ] },
        { created := [{ skill := "a", agent := "claude-code",
                        source := ["r", ".agents", "skills", "a"],
                        target := ["r", ".claude", "skills", "a"], reason := none }],
          skipped := [], failed := [] }) ∧
    ([ (["r", ".claude"], Node.dir),
       (["r", ".claude", "skills"], Node.dir) ] : List (FPath × Node)) ≠
      [ (["r", ".claude"], Node.dir),
        (["r", ".claude", "skills"], Node.dir),
        (["r", ".claude", "skills", "a"],
          Node.symlink ["..", "..", ".agents", "skills", "a"]) ] := by
  refine ⟨by decide, rfl, by decide⟩

/-! ### Claim C9 -/

/-- C9 (amended): the inspector swallows metadata read failures: when
`lstat` fails for a reason other than absence, `isSymlink` returns
`false`, exactly as it does for an absent path — no failure distinct
from `absent` is signalled and no failed outcome is recorded. -/
theorem claim9_inspection_error_swallowed
    (fs : FSys) (p : FPath) :
    (lstatSyncRes fs p = .eperm → isSymlink fs p = false) ∧
    (lstatSyncRes fs p = .enoent → isSymlink fs p = false) := by
  constructor
  · intro h
    unfold isSymlink
    rw [h]
  · intro h
    unfold isSymlink
    rw [h]

/-- C9 witness: concrete instantiation of
`claim9_inspection_error_swallowed`: a read-denied path holding a
symbolic link is classified exactly like an absent path. -/
theorem claim9_inspection_error_swallowed_witness :
    isSymlink
      { entries := [ (["r", ".claude", "skills", "a"],
                       Node.symlink ["..", "..", ".agents", "skills", "a"]) ],
        denied := [["r", ".claude", "skills", "a"]] }
      ["r", ".claude", "skills", "a"] = false :=
  (claim9_inspection_error_swallowed
    { entries := [ (["r", ".claude", "skills", "a"],
                     Node.symlink ["..", "..", ".agents", "skills", "a"]) ],
      denied := [["r", ".claude", "skills", "a"]] }
    ["r", ".claude", "skills", "a"]).1 (by decide)

/-- C9 counterexample: a (skill, agent) pair whose link path cannot
be inspected (read-denied) is treated as absent, and the run then
aborts with an uncaught EEXIST error; the pair is not recorded as a
failed outcome and processing does not continue. -/
theorem claim9_counterexample :
    syncSkills
      { entries := [ (["r", ".agents"], Node.dir),
                     (["r", ".agents", "skills"], Node.dir),
                     (["r", ".agents", "skills", "a"], Node.dir),
                     (["r", ".claude"], Node.dir),
                     (["r", ".claude", "skills"], Node.dir),
                     (["r", ".claude", "skills", "a"],
                       Node.symlink ["..", "..", ".agents", "skills", "a"]) ],
        denied := [["r", ".claude", "skills", "a"]] } ["r"]
      { agents := [("claude-code", [".claude", "skills"])] } =
      .error "EEXIST: file already exists" := rfl

/-! ### Claim C7 -/

/-- C7: both `syncSkills` (per-pair step) and `getStatus` classify an
existing symbolic link as correct exactly when its stored destination
equals, component-for-component, the relative path the engine itself
generates; any other stored spelling — even one resolving to the same
path — is classified incorrect/wrong, without following the link. -/
theorem claim7_textual_link_comparison
    {fs : FSys} {root : FPath} {dry : Bool} {a : String} {dir : FPath} {s : String}
    {d : FPath} {res : SyncResult}
    (hfe : findEntry fs.entries (joinP dir [s]) = some (Node.symlink d))
    (hnden : joinP dir [s] ∉ fs.denied) :
    (syncStep root dry a dir s fs res = .ok (fs,
        { res with skipped := res.skipped ++
          [pairEntryR root a dir s (some "already linked")] }) ↔
      d = expectedFor root dir s) ∧
    (statusSkill fs root dir s = .linked ↔ d = expectedFor root dir s) ∧
    (d ≠ expectedFor root dir s → statusSkill fs root dir s = .wrong) := by
  have hsl : isSymlink fs (joinP dir [s]) = true := isSymlink_of_link hnden hfe
  have hrl : readlinkD fs (joinP dir [s]) = d := readlinkD_of_link hfe
  refine ⟨⟨?_, ?_⟩, ⟨?_, ?_⟩, ?_⟩
  · intro h
    rcases syncStep_ok_cases h with ⟨_, heq, _, _⟩ | ⟨_, hslf, _, _⟩ | ⟨_, _, _, hres⟩ |
      ⟨_, _, _, fs1, fs2, _, _, _, hres⟩ | ⟨_, _, _, fs2, _, _, hres⟩
    · rw [hrl] at heq
      exact heq
    · rw [hsl] at hslf
      cases hslf
    · exfalso
      have := congrArg (fun r => r.created.length) hres
      simp at this
    · exfalso
      have := congrArg (fun r => r.created.length) hres
      simp at this
    · exfalso
      have := congrArg (fun r => r.created.length) hres
      simp at this
  · intro hd
    subst hd
    exact @syncStep_on_linked root dry a dir s fs res (Node.symlink (expectedFor root dir s))
      hnden ⟨hfe, Or.inl rfl⟩
  · intro h
    unfold statusSkill at h
    dsimp only at h
    rw [hsl, if_pos rfl, hrl] at h
    by_cases hd : d = relativeP dir (joinP root (CANONICAL_SOURCE ++ [s]))
    · exact hd
    · rw [if_neg hd] at h
      cases h
  · intro hd
    subst hd
    unfold statusSkill
    dsimp only
    rw [hsl, if_pos rfl, hrl, if_pos (show expectedFor root dir s =
      relativeP dir (joinP root (CANONICAL_SOURCE ++ [s])) from rfl)]
  · intro hd
    unfold statusSkill
    dsimp only
    rw [hsl, if_pos rfl, hrl, if_neg ?hne]
    case hne =>
      intro hEq
      exact hd hEq

/-- C7 witness: a symbolic link whose stored destination is spelled
with a leading "." — resolving to the same path as the expected
destination — is classified `wrong` by the status classifier, while
the byte-identical spelling is classified `linked`. -/
theorem claim7_textual_link_comparison_witness :
    (statusSkill
      { entries := [ (["r", ".agents"], Node.dir),
                     (["r", ".agents", "skills"], Node.dir),
                     (["r", ".agents", "skills", "a"], Node.dir),
                     (["r", ".claude"], Node.dir),
                     (["r", ".claude", "skills"], Node.dir),
                     (["r", ".claude", "skills", "a"],
                       Node.symlink [".", "..", "..", ".agents", "skills", "a"]) ] }
      ["r"] (joinP ["r"] [".claude", "skills"]) "a" = .linked ↔
      [".", "..", "..", ".agents", "skills", "a"] =
        expectedFor ["r"] (joinP ["r"] [".claude", "skills"]) "a") ∧
    ([".", "..", "..", ".agents", "skills", "a"] ≠
        expectedFor ["r"] (joinP ["r"] [".claude", "skills"]) "a" →
      statusSkill
        { entries := [ (["r", ".agents"], Node.dir),
                       (["r", ".agents", "skills"], Node.dir),
                       (["r", ".agents", "skills", "a"], Node.dir),
                       (["r", ".claude"], Node.dir),
                       (["r", ".claude", "skills"], Node.dir),
                       (["r", ".claude", "skills", "a"],
                         Node.symlink [".", "..", "..", ".agents", "skills", "a"]) ] }
        ["r"] (joinP ["r"] [".claude", "skills"]) "a" = .wrong) ∧
    joinP (joinP ["r"] [".claude", "skills"]) [".", "..", "..", ".agents", "skills", "a"] =
      joinP (joinP ["r"] [".claude", "skills"])
        (expectedFor ["r"] (joinP ["r"] [".claude", "skills"]) "a") ∧
    [".", "..", "..", ".agents", "skills", "a"] ≠
      expectedFor ["r"] (joinP ["r"] [".claude", "skills"]) "a" :=
  ⟨(@claim7_textual_link_comparison
      { entries := [ (["r", ".agents"], Node.dir),
                     (["r", ".agents", "skills"], Node.dir),
                     (["r", ".agents", "skills", "a"], Node.dir),
                     (["r", ".claude"], Node.dir),
                     (["r", ".claude", "skills"], Node.dir),
                     (["r", ".claude", "skills", "a"],
                       Node.symlink [".", "..", "..", ".agents", "skills", "a"]) ] }
      ["r"] false "claude-code" (joinP ["r"] [".claude", "skills"]) "a"
      [".", "..", "..", ".agents", "skills", "a"] ⟨[], [], []⟩
      (by decide) (by decide)).2.1,
   (@claim7_textual_link_comparison
      { entries := [ (["r", ".agents"], Node.dir),
                     (["r", ".agents", "skills"], Node.dir),
                     (["r", ".agents", "skills", "a"], Node.dir),
                     (["r", ".claude"], Node.dir),
                     (["r", ".claude", "skills"], Node.dir),
                     (["r", ".claude", "skills", "a"],
                       Node.symlink [".", "..", "..", ".agents", "skills", "a"]) ] }
      ["r"] false "claude-code" (joinP ["r"] [".claude", "skills"]) "a"
      [".", "..", "..", ".agents", "skills", "a"] ⟨[], [], []⟩
      (by decide) (by decide)).2.2,
   by decide, by decide⟩

/-! ### Claim C3 -/

/-- C3: the code compares the rendered resolved destination against
the rendered canonical root with a plain string `startsWith`, with no
path-separator boundary.  A symlink pointing into a sibling directory
whose name merely extends the canonical root's name (here
`.agents/skillsx`) is therefore removed by `cleanSkills` and reported
as removed, although its resolved destination lies outside the
canonical source root — contradicting the claim (and the code's own
doc comment "Only removes symlinks that point back to
.agents/skills/"). -/
theorem claim3_clean_removes_sibling_link :
    cleanSkills
      { entries := [ (["r", ".claude"], Node.dir),
                     (["r", ".claude", "skills"], Node.dir),
                     (["r", ".claude", "skills", "foo"],
                       Node.symlink ["..", "..", ".agents", "skillsx", "foo"]),
                     (["r", ".agents"], Node.dir),
                     (["r", ".agents", "skillsx"], Node.dir),
                     (["r", ".agents", "skillsx", "foo"], Node.dir) ] } ["r"]
      { agents := [("claude-code", [".claude", "skills"])] } =
      .ok ({ entries := [ (["r", ".claude"], Node.dir),
                          (["r", ".claude", "skills"], Node.dir),
                          (["r", ".agents"], Node.dir),
                          (["r", ".agents", "skillsx"], Node.dir),
                          (["r", ".agents", "skillsx", "foo"], Node.dir) ] },
        { created := [{ skill := "foo", agent := "claude-code",
                        source := ["r", ".agents", "skills", "foo"],
                        target := ["r", ".claude", "skills", "foo"], reason := none }],
          skipped := [], failed := [] }) ∧
    joinP (joinP ["r"] [".claude", "skills"]) ["..", "..", ".agents", "skillsx", "foo"] =
      ["r", ".agents", "skillsx", "foo"] ∧
    ¬ (joinP ["r"] CANONICAL_SOURCE <+: ["r", ".agents", "skillsx", "foo"]) ∧
    strStartsWith
      (renderP ["r", ".agents", "skillsx", "foo"])
      (renderP (joinP ["r"] CANONICAL_SOURCE)) = true ∧
    findEntry [ (["r", ".claude"], Node.dir),
                (["r", ".claude", "skills"], Node.dir),
                (["r", ".agents"], Node.dir),
                (["r", ".agents", "skillsx"], Node.dir),
                (["r", ".agents", "skillsx", "foo"], Node.dir) ]
      ["r", ".claude", "skills", "foo"] = none := by
  refine ⟨rfl, by decide, by decide, by decide, rfl⟩

/-! ### Claim C10 -/

/-- C10: only entries of the canonical source root whose
directory-entry type is a directory are items: a name is discovered
iff a directory node is recorded at that child path; every outcome of
`syncSkills` bears a discovered skill; and every name in any
`getStatus` bucket is a discovered skill.  Files and symbolic links
inside the canonical root are never items. -/
theorem claim10_only_directories_are_items
    {fs : FSys} {root : FPath} {opts : SyncOptions} {skills : List String}
    (hdisc : discoverSkills fs root = .ok skills) :
    (∀ s, s ∈ skills ↔ (joinP root CANONICAL_SOURCE ++ [s], Node.dir) ∈ fs.entries) ∧
    (∀ fs1 r, syncSkills fs root opts = .ok (fs1, r) →
      ∀ e ∈ r.created ++ r.skipped ++ r.failed, e.skill ∈ skills) ∧
    (∀ sts, getStatus fs root opts = .ok sts →
      ∀ st ∈ sts, ∀ s, s ∈ st.linked ∨ s ∈ st.unlinked ∨ s ∈ st.wrong → s ∈ skills) := by
  refine ⟨fun s => discoverSkills_mem_iff hdisc, ?_, ?_⟩
  · intro fs1 r hrun e he
    obtain ⟨skills0, hdisc0, hloop⟩ := syncSkills_ok_elim hrun
    rw [hdisc] at hdisc0
    cases hdisc0
    obtain ⟨hf, lc, ls, hc, hs, hmem⟩ := syncAgentsLoop_res hloop
    have he' : e ∈ lc ++ ls := by
      rcases List.mem_append.mp he with h1 | h1
      · rcases List.mem_append.mp h1 with h2 | h2
        · rw [hc] at h2
          simp only [List.nil_append] at h2
          exact List.mem_append.mpr (Or.inl h2)
        · rw [hs] at h2
          simp only [List.nil_append] at h2
          exact List.mem_append.mpr (Or.inr h2)
      · rw [hf] at h1
        cases h1
    obtain ⟨ag, _, s, hsmem, r', he''⟩ := hmem e he'
    rw [he'']
    exact hsmem
  · intro sts hsts st hst s hbucket
    obtain ⟨skills0, hdisc0, hstseq⟩ := getStatus_ok_elim hsts
    rw [hdisc] at hdisc0
    cases hdisc0
    rw [hstseq] at hst
    obtain ⟨ag, _, rfl⟩ := List.mem_map.mp hst
    rw [statusAgent_eq] at hbucket
    rcases hbucket with h1 | h1 | h1 <;> exact (List.mem_filter.mp h1).1

/-- C10 witness: a canonical root containing a directory, a regular
file and a symbolic link (to a directory) discovers only the
directory as a skill; sync outcomes and status buckets mention only
it. -/
theorem claim10_only_directories_are_items_witness :
    (∀ s, s ∈ ["a"] ↔
      (joinP ["r"] CANONICAL_SOURCE ++ [s], Node.dir) ∈
        ([ (["r", ".agents"], Node.dir),
           (["r", ".agents", "skills"], Node.dir),
           (["r", ".agents", "skills", "a"], Node.dir),
           (["r", ".agents", "skills", "f"], Node.file "notes"),
           (["r", ".agents", "skills", "l"],
             Node.symlink ["..", "..", ".agents", "skills", "a"]) ] :
          List (FPath × Node))) ∧
    (∀ fs1 r, syncSkills
        { entries := [ (["r", ".agents"], Node.dir),
                       (["r", ".agents", "skills"], Node.dir),
                       (["r", ".agents", "skills", "a"], Node.dir),
                       (["r", ".agents", "skills", "f"], Node.file "notes"),
                       (["r", ".agents", "skills", "l"],
                         Node.symlink ["..", "..", ".agents", "skills", "a"]) ] } ["r"]
        { agents := [("claude-code", [".claude", "skills"])] } = .ok (fs1, r) →
      ∀ e ∈ r.created ++ r.skipped ++ r.failed, e.skill ∈ ["a"]) ∧
    (∀ sts, getStatus
        { entries := [ (["r", ".agents"], Node.dir),
                       (["r", ".agents", "skills"], Node.dir),
                       (["r", ".agents", "skills", "a"], Node.dir),
                       (["r", ".agents", "skills", "f"], Node.file "notes"),
                       (["r", ".agents", "skills", "l"],
                         Node.symlink ["..", "..", ".agents", "skills", "a"]) ] } ["r"]
        { agents := [("claude-code", [".claude", "skills"])] } = .ok sts →
      ∀ st ∈ sts, ∀ s, s ∈ st.linked ∨ s ∈ st.unlinked ∨ s ∈ st.wrong → s ∈ ["a"]) :=
  @claim10_only_directories_are_items
    { entries := [ (["r", ".agents"], Node.dir),
                   (["r", ".agents", "skills"], Node.dir),
                   (["r", ".agents", "skills", "a"], Node.dir),
                   (["r", ".agents", "skills", "f"], Node.file "notes"),
                   (["r", ".agents", "skills", "l"],
                     Node.symlink ["..", "..", ".agents", "skills", "a"]) ] }
    ["r"]
    { agents := [("claude-code", [".claude", "skills"])] }
    ["a"]
    rfl
